import Mathlib

/-!
# Marching-squares contour generator: `tema1_par.c`

A shallow embedding of the sampling / classification / stamping code of
`src/tema1_par.c` and the properties its specification states about it.

Conventions of the embedding.

* C `int` values are natural numbers or integers without wrap-around.  Every working
  image handled by `f` and `march` is at most `RESCALE_X x RESCALE_Y = 2048 x 2048`
  pixels, so every index the code computes is below `2^23` and no `int` operation
  overflows.
* `unsigned char` is `Fin 256`; arithmetic on it is done on the underlying naturals
  (C promotes to `int`) and reduced modulo 256 where the result is stored back.
* A pixel buffer `ppm_pixel *data` is a total map from the (signed) element offset to
  the pixel stored there, so a load is total and a store is a pointwise update.  The
  entries at offsets `0 .. x*y-1` are the pixels of the image; a load at another offset
  yields whatever the memory next to the buffer holds, which is not part of the image.
  Two pictures are the same working image when they agree on `x`, `y` and these entries.
* The grid `unsigned char **grid` is a total map from row and column to the stored
  byte; its allocation (`sample_grid`) is recorded separately.
* A C loop `for (i = a; i < b; i++)` is `for_loop a b`, a left fold over `a, a+1, .., b-1`.
* The workers of one phase are run one after the other in an arbitrary order given as
  a list of thread ids; the two `pthread_barrier_wait` calls separate the phases.
-/

namespace MarchingSquares

/-! ## Constants (lines 8-13) -/

def CONTOUR_CONFIG_COUNT : Nat := 16
def STEP : Nat := 8
def SIGMA : Nat := 200
def RESCALE_X : Nat := 2048
def RESCALE_Y : Nat := 2048

/-! ## Data model -/

/-- Modelled from the spec: `ppm_pixel` is declared in `helpers.h`, which is not among the
sources.  The spec describes it as a "triple of 8-bit unsigned channel intensities (red,
green, blue)"; the code reads and writes the fields `red`, `green`, `blue`. -/
structure ppm_pixel where
  red : Fin 256
  green : Fin 256
  blue : Fin 256
deriving DecidableEq

/-- Modelled from the spec: `ppm_image` is declared in `helpers.h`.  The code uses the fields
`x`, `y` (dimensions) and `data` (the pixel buffer); pixel `(r, c)` is `data[r * y + c]`. -/
structure ppm_image where
  x : Nat
  y : Nat
  data : Int → ppm_pixel

/-- The contents of `unsigned char **grid`: `g i j` is `grid[i][j]`. -/
abbrev grid_t : Type := Nat → Nat → Fin 256

/-- The statement `grid[i][j] = v`. -/
def grid_set (grid : grid_t) (i j : Nat) (v : Fin 256) : grid_t :=
  fun a b => if a = i ∧ b = j then v else grid a b

/-- The C loop `for (int i = start; i < stop; i++) body(i)` acting on a state. -/
def for_loop {σ : Type} (start stop : Nat) (body : Nat → σ → σ) (s : σ) : σ :=
  (List.range' start (stop - start)).foldl (fun acc i => body i acc) s

/-! ## Work partition (lines 143-144, 264-265, 296-297)

`int start = thread_id * (double)N / nr_th;` and
`int end = min((thread_id + 1) * (double)N / nr_th, N);`.
The product is an exact double (both factors are below `2^31`) and the quotient is
correctly rounded.  A non-integral quotient `a / nr_th` is at least `1 / nr_th` below the
next integer, while the rounding error is at most `N * 2^-53` with `N <= 256` and
`nr_th < 2^31`; so the truncation to `int` is the integer quotient.  `nr_th >= 1` is
assumed wherever the partition is used. -/

def part_start (thread_id nr_th N : Nat) : Nat :=
  thread_id * N / nr_th

def part_end (thread_id nr_th N : Nat) : Nat :=
  min ((thread_id + 1) * N / nr_th) N

/-! ## `update_image` (lines 57-68) -/

/-- Lines 57-68.  Only `image->data` is written; `image->x` and `image->y` are read. -/
def update_image (image contour : ppm_image) (x y : Nat) : ppm_image :=
  { x := image.x
    y := image.y
    data :=
      for_loop 0 contour.x (fun i data =>
        for_loop 0 contour.y (fun j data =>
          let contour_pixel_index : Int := ((contour.x * i + j : Nat) : Int)
          let image_pixel_index : Int := (((x + i) * image.y + y + j : Nat) : Int)
          Function.update data image_pixel_index
            { red := (contour.data contour_pixel_index).red
              green := (contour.data contour_pixel_index).green
              blue := (contour.data contour_pixel_index).blue }) data) image.data }

/-! ## `sample_grid` (lines 74-133): allocation only, the sampling itself is commented out -/

/-- The result of `sample_grid`: `rows[i]` is `none` while `grid[i]` is not yet
allocated and `some len` once `grid[i]` points to `len` bytes; `cell` is the
(uninitialised) content. -/
structure grid_alloc where
  rows : List (Option Nat)
  cell : grid_t

/-- Lines 74-133.  `junk` is the content of the freshly allocated memory. -/
def sample_grid (image : ppm_image) (step_x step_y : Nat) (_sigma : Fin 256)
    (junk : grid_t) : grid_alloc :=
  let p := min image.x RESCALE_X / step_x
  let q := min image.y RESCALE_Y / step_y
  { rows := for_loop 0 (p + 1) (fun i rows => rows.set i (some (q + 1)))
      (List.replicate (p + 1) none)
    cell := junk }

/-! ## Configuration code and `march` (lines 139-152) -/

/-- Line 148, as a function of the four bytes read:
`unsigned char k = 8 * tl + 4 * tr + 2 * br + 1 * bl`. -/
def config_of_corners (tl tr br bl : Fin 256) : Nat :=
  (8 * tl.val + 4 * tr.val + 2 * br.val + 1 * bl.val) % 256

/-- Line 148: the value of `k` for cell `(i, j)`. -/
def config_code (grid : grid_t) (i j : Nat) : Nat :=
  config_of_corners (grid i j) (grid i (j + 1)) (grid (i + 1) (j + 1)) (grid (i + 1) j)

/-- Lines 139-152.  `contour_map k` is `contour_map[k]`. -/
def march (thread_id nr_th : Nat) (image : ppm_image) (grid : grid_t)
    (contour_map : Nat → ppm_image) (step_x step_y : Nat) : ppm_image :=
  let p := image.x / step_x
  let q := image.y / step_y
  let start := part_start thread_id nr_th p
  let stop := part_end thread_id nr_th p
  for_loop start stop (fun i img =>
    for_loop 0 q (fun j img =>
      let k := config_code grid i j
      update_image img (contour_map k) (i * step_x) (j * step_y)) img) image

/-! ## `rescale_image` (lines 171-212) and the choice of the working image -/

/-- Lines 171-212.  `fresh` is the content of the newly allocated buffer (the
interpolation loop of this function is commented out). -/
def rescale_image (image : ppm_image) (fresh : Int → ppm_pixel) : ppm_image :=
  if image.x ≤ RESCALE_X ∧ image.y ≤ RESCALE_Y then image
  else { x := RESCALE_X, y := RESCALE_Y, data := fresh }

/-- Lines 233-256 of `f`: the image a worker uses as `picture`. -/
def f_picture (image new_image : ppm_image) : ppm_image :=
  if image.x > RESCALE_X ∨ image.y > RESCALE_Y then new_image else image

/-- Lines 332-340 of `main`: the image `main` uses as `picture`. -/
def main_picture (image scaled_image : ppm_image) : ppm_image :=
  if image.x > RESCALE_X ∨ image.y > RESCALE_Y then scaled_image else image

/-! ## The sampling phase of `f` (lines 261-308) -/

/-- Lines 271-277 (and 287-293, 301-307): the byte stored for `curr_pixel`. -/
def sample_cell (curr_pixel : ppm_pixel) (sigma : Fin 256) : Fin 256 :=
  let curr_color : Nat :=
    ((curr_pixel.red.val + curr_pixel.green.val + curr_pixel.blue.val) / 3) % 256
  if curr_color > sigma.val then 0 else 1

/-- Lines 261-308: the grid after one worker has run its sampling code. -/
def f_sample (thread_id nr_th : Nat) (picture : ppm_image) (step_x step_y : Nat)
    (grid : grid_t) : grid_t :=
  let sigma : Fin 256 := ⟨SIGMA, by decide⟩
  let p := picture.x / step_x
  let q := picture.y / step_y
  let start := part_start thread_id nr_th p
  let stop := part_end thread_id nr_th p
  let grid := for_loop start stop (fun i grid =>
    for_loop 0 q (fun j grid =>
      let curr_pixel := picture.data ((i * step_x * picture.y + j * step_y : Nat) : Int)
      grid_set grid i j (sample_cell curr_pixel sigma)) grid) grid
  let grid := grid_set grid p q 0
  let grid := for_loop start stop (fun i grid =>
    let curr_pixel := picture.data (((i * step_x * picture.y + picture.x : Nat) : Int) - 1)
    grid_set grid i q (sample_cell curr_pixel sigma)) grid
  let start := part_start thread_id nr_th q
  let stop := part_end thread_id nr_th q
  for_loop start stop (fun j grid =>
    let curr_pixel :=
      picture.data (((picture.x : Int) - 1) * (picture.y : Int) + ((j * step_y : Nat) : Int))
    grid_set grid p j (sample_cell curr_pixel sigma)) grid

/-! ## Phases -/

/-- The sampling code of the workers in `order`, run one after the other. -/
def sample_phase (order : List Nat) (nr_th : Nat) (picture : ppm_image)
    (step_x step_y : Nat) (grid : grid_t) : grid_t :=
  order.foldl (fun g thread_id => f_sample thread_id nr_th picture step_x step_y g) grid

/-- The calls `march(thread_id, nr_th, picture, grid, contour_map, step_x, step_y)` of the
workers in `order`, run one after the other. -/
def march_phase (order : List Nat) (nr_th : Nat) (image : ppm_image) (grid : grid_t)
    (contour_map : Nat → ppm_image) (step_x step_y : Nat) : ppm_image :=
  order.foldl (fun img thread_id => march thread_id nr_th img grid contour_map step_x step_y)
    image

/-- Lines 261-312 for all workers: sampling phase, barrier, march phase, with
`step_x = step_y = STEP` as `main` sets them. -/
def run_workers (nr_th : Nat) (sample_order march_order : List Nat) (picture : ppm_image)
    (grid : grid_t) (contour_map : Nat → ppm_image) : ppm_image :=
  march_phase march_order nr_th picture
    (sample_phase sample_order nr_th picture STEP STEP grid) contour_map STEP STEP

/-! ## Auxiliary notions used in the proofs -/

/-- The step `f` keeps the state invariant `I`, and every location `k` (read through `rd`)
holds after `f` either what it held before or a content permitted by `Legal`. -/
def LegalStep {σ κ β : Type} (I : σ → Prop) (rd : σ → κ → β) (Legal : κ → β → Prop)
    (f : σ → σ) : Prop :=
  ∀ s, I s → I (f s) ∧ ∀ k, rd (f s) k = rd s k ∨ Legal k (rd (f s) k)

/-- Reading cell `k = (i, j)` of a grid. -/
def grid_rd (grid : grid_t) (k : Nat × Nat) : Fin 256 := grid k.1 k.2

/-- Closed form of the byte the sampling code of `f` stores in cell `(a, b)`, read off
lines 267-308: the regular sample for `a < p, b < q`, the read of line 285 for
`a < p, b = q`, the read of line 299 for `a = p, b < q`, and the constant of line 280. -/
def sampled (picture : ppm_image) (step_x step_y : Nat) (a b : Nat) : Fin 256 :=
  let sigma : Fin 256 := ⟨SIGMA, by decide⟩
  if a < picture.x / step_x then
    if b < picture.y / step_y then
      sample_cell (picture.data ((a * step_x * picture.y + b * step_y : Nat) : Int)) sigma
    else
      sample_cell (picture.data (((a * step_x * picture.y + picture.x : Nat) : Int) - 1)) sigma
  else if b < picture.y / step_y then
    sample_cell
      (picture.data (((picture.x : Int) - 1) * (picture.y : Int) + ((b * step_y : Nat) : Int)))
      sigma
  else 0

/-- The stores the sampling code may perform: cell `k` inside the `(p+1) x (q+1)` grid
receives `sampled` at `k`. -/
def SampleLegal (picture : ppm_image) (step_x step_y : Nat) (k : Nat × Nat) (v : Fin 256) :
    Prop :=
  k.1 ≤ picture.x / step_x ∧ k.2 ≤ picture.y / step_y ∧ v = sampled picture step_x step_y k.1 k.2

/-- Lines 267-279 of `f` for the row range `[start, stop)`. -/
def sample_regular (start stop : Nat) (picture : ppm_image) (step_x step_y : Nat)
    (grid : grid_t) : grid_t :=
  for_loop start stop (fun i grid =>
    for_loop 0 (picture.y / step_y) (fun j grid =>
      grid_set grid i j
        (sample_cell (picture.data ((i * step_x * picture.y + j * step_y : Nat) : Int))
          ⟨SIGMA, by decide⟩)) grid) grid

/-- Lines 284-294 of `f` for the row range `[start, stop)`. -/
def sample_last_col (start stop : Nat) (picture : ppm_image) (step_x step_y : Nat)
    (grid : grid_t) : grid_t :=
  for_loop start stop (fun i grid =>
    grid_set grid i (picture.y / step_y)
      (sample_cell (picture.data (((i * step_x * picture.y + picture.x : Nat) : Int) - 1))
        ⟨SIGMA, by decide⟩)) grid

/-- Lines 298-308 of `f` for the column range `[start, stop)`. -/
def sample_last_row (start stop : Nat) (picture : ppm_image) (step_x step_y : Nat)
    (grid : grid_t) : grid_t :=
  for_loop start stop (fun j grid =>
    grid_set grid (picture.x / step_x) j
      (sample_cell
        (picture.data (((picture.x : Int) - 1) * (picture.y : Int) + ((j * step_y : Nat) : Int)))
        ⟨SIGMA, by decide⟩)) grid

/-- Reading offset `k` of the pixel buffer of an image. -/
def img_rd (img : ppm_image) (k : Int) : ppm_pixel := img.data k

/-- Reading offset `k` of a pixel buffer. -/
def data_rd (data : Int → ppm_pixel) (k : Int) : ppm_pixel := data k

/-- The stores `update_image(image, contour, x0, y0)` may perform on an image with rows of
`y` pixels: offset `(x0 + r) * y + y0 + c` receives tile pixel `contour.x * r + c`. -/
def TileLegal (y : Nat) (contour : ppm_image) (x0 y0 : Nat) (k : Int) (v : ppm_pixel) : Prop :=
  ∃ r c, r < contour.x ∧ c < contour.y ∧ k = (((x0 + r) * y + y0 + c : Nat) : Int) ∧
    v = contour.data ((contour.x * r + c : Nat) : Int)

/-- The stores `march` may perform with `step_x = step_y = STEP`: the pixel of row `a`,
column `b` receives pixel `(a mod STEP, b mod STEP)` of the tile selected by the
configuration code of cell `(a / STEP, b / STEP)`. -/
def MarchLegal (image : ppm_image) (grid : grid_t) (contour_map : Nat → ppm_image)
    (k : Int) (v : ppm_pixel) : Prop :=
  ∃ a b, a < STEP * (image.x / STEP) ∧ b < STEP * (image.y / STEP) ∧
    k = ((a * image.y + b : Nat) : Int) ∧
    v = (contour_map (config_code grid (a / STEP) (b / STEP))).data
          ((STEP * (a % STEP) + b % STEP : Nat) : Int)

/-- The channel average `(red + green + blue) / 3` of a pixel, computed in `int`. -/
def channel_average (px : ppm_pixel) : Nat :=
  (px.red.val + px.green.val + px.blue.val) / 3

/-- A corner value 0 or 1 as a grid byte. -/
def bit_cell (b : Fin 2) : Fin 256 := ⟨b.val, Nat.lt_trans b.isLt (by decide)⟩

/-! ## Concrete inputs used to exercise the theorems -/

def black : ppm_pixel := { red := 0, green := 0, blue := 0 }

def white : ppm_pixel := { red := 255, green := 255, blue := 255 }

/-- A pixel whose channel average is exactly `SIGMA`. -/
def grey200 : ppm_pixel := { red := 199, green := 200, blue := 201 }

/-- An image of 8 rows of 16 pixels: black, except that the pixel at offset 7 (row 0,
column 7) is white. -/
def wide_image : ppm_image :=
  { x := 8, y := 16, data := fun k => if k = 7 then white else black }

/-- A 16 x 16 image whose pixels all have channel average 200. -/
def grey_image : ppm_image :=
  { x := 16, y := 16, data := fun _ => grey200 }

/-- Sixteen 8 x 8 tiles; tile `k` has red channel `k` and green channel the pixel offset. -/
def test_tiles (k : Nat) : ppm_image :=
  { x := 8
    y := 8
    data := fun i =>
      { red := ⟨k % 256, Nat.mod_lt _ (by decide)⟩
        green := ⟨i.toNat % 256, Nat.mod_lt _ (by decide)⟩
        blue := 0 } }

/-- A grid of ones. -/
def ones_grid : grid_t := fun _ _ => 1

/-! ## Memory accesses

The same code, instrumented: instead of the state after the code has run, the list of the
loads and stores it performs, in program order.  The stored values of the sampling code
depend only on the (read-only) picture and the offsets `march` touches depend only on the
grid, the tiles and the image dimensions, so the lists do not depend on the state they act
on. -/

/-- A memory access of the sampling code of `f`: the load `picture->data[k]` or the store
`grid[i][j] = v`. -/
inductive sample_access where
  | load_pixel (k : Int)
  | store_cell (i j : Nat) (v : Fin 256)
deriving DecidableEq

/-- A memory access of `march` and `update_image`: the load `grid[i][j]`, the load
`contour_map[k]`, the load `contour->data[idx]` and the store `image->data[idx] = v`. -/
inductive march_access where
  | load_cell (i j : Nat)
  | load_map (k : Nat)
  | load_tile (idx : Int)
  | store_pixel (idx : Int) (v : ppm_pixel)
deriving DecidableEq

/-- Lines 261-308: the accesses of one worker's sampling code. -/
def f_sample_trace (thread_id nr_th : Nat) (picture : ppm_image) (step_x step_y : Nat) :
    List sample_access :=
  let sigma : Fin 256 := ⟨SIGMA, by decide⟩
  let p := picture.x / step_x
  let q := picture.y / step_y
  let start := part_start thread_id nr_th p
  let stop := part_end thread_id nr_th p
  let tr := for_loop start stop (fun i tr =>
    for_loop 0 q (fun j tr =>
      let k : Int := ((i * step_x * picture.y + j * step_y : Nat) : Int)
      tr ++ [sample_access.load_pixel k,
        sample_access.store_cell i j (sample_cell (picture.data k) sigma)]) tr) []
  let tr := tr ++ [sample_access.store_cell p q 0]
  let tr := for_loop start stop (fun i tr =>
    let k : Int := ((i * step_x * picture.y + picture.x : Nat) : Int) - 1
    tr ++ [sample_access.load_pixel k,
      sample_access.store_cell i q (sample_cell (picture.data k) sigma)]) tr
  let start := part_start thread_id nr_th q
  let stop := part_end thread_id nr_th q
  for_loop start stop (fun j tr =>
    let k : Int := ((picture.x : Int) - 1) * (picture.y : Int) + ((j * step_y : Nat) : Int)
    tr ++ [sample_access.load_pixel k,
      sample_access.store_cell p j (sample_cell (picture.data k) sigma)]) tr

/-- The effect of one access of the sampling code on the grid. -/
def apply_sample_access (grid : grid_t) : sample_access → grid_t
  | sample_access.load_pixel _ => grid
  | sample_access.store_cell i j v => grid_set grid i j v

/-- The effect of a list of accesses of the sampling code on the grid. -/
def replay_cells (tr : List sample_access) (grid : grid_t) : grid_t :=
  tr.foldl apply_sample_access grid

/-- Lines 57-68: the accesses of `update_image(image, contour, x, y)`. -/
def update_image_trace (image contour : ppm_image) (x y : Nat) : List march_access :=
  for_loop 0 contour.x (fun i tr =>
    for_loop 0 contour.y (fun j tr =>
      let contour_pixel_index : Int := ((contour.x * i + j : Nat) : Int)
      let image_pixel_index : Int := (((x + i) * image.y + y + j : Nat) : Int)
      tr ++ [march_access.load_tile contour_pixel_index,
        march_access.store_pixel image_pixel_index
          { red := (contour.data contour_pixel_index).red
            green := (contour.data contour_pixel_index).green
            blue := (contour.data contour_pixel_index).blue }]) tr) []

/-- Lines 139-152: the accesses of `march` for one worker. -/
def march_trace (thread_id nr_th : Nat) (image : ppm_image) (grid : grid_t)
    (contour_map : Nat → ppm_image) (step_x step_y : Nat) : List march_access :=
  let p := image.x / step_x
  let q := image.y / step_y
  let start := part_start thread_id nr_th p
  let stop := part_end thread_id nr_th p
  for_loop start stop (fun i tr =>
    for_loop 0 q (fun j tr =>
      let k := config_code grid i j
      tr ++ [march_access.load_cell i j, march_access.load_cell i (j + 1),
          march_access.load_cell (i + 1) (j + 1), march_access.load_cell (i + 1) j,
          march_access.load_map k] ++
        update_image_trace image (contour_map k) (i * step_x) (j * step_y)) tr) []

/-- The effect of one access of `march` on the pixel buffer of the image. -/
def apply_march_access (data : Int → ppm_pixel) : march_access → (Int → ppm_pixel)
  | march_access.store_pixel idx v => Function.update data idx v
  | _ => data

/-- The effect of a list of accesses of `march` on the pixel buffer of the image. -/
def replay_pixels (tr : List march_access) (data : Int → ppm_pixel) : Int → ppm_pixel :=
  tr.foldl apply_march_access data

/-- The cells worker `thread_id` stores to: an access that is a store goes to a cell of the
worker's row range, to the corner cell `(p, q)`, or to a cell of the last row in the
worker's column range. -/
def OwnStore (thread_id nr_th : Nat) (picture : ppm_image) (step_x step_y : Nat)
    (e : sample_access) : Prop :=
  ∀ i j v, e = sample_access.store_cell i j v →
    ((part_start thread_id nr_th (picture.x / step_x) ≤ i ∧
        i < part_end thread_id nr_th (picture.x / step_x) ∧ j ≤ picture.y / step_y) ∨
      (i = picture.x / step_x ∧ j = picture.y / step_y) ∨
      (i = picture.x / step_x ∧ part_start thread_id nr_th (picture.y / step_y) ≤ j ∧
        j < part_end thread_id nr_th (picture.y / step_y)))

/-- The accesses of `update_image(image, contour, x0, y0)` on an image with rows of
`image_y` pixels: for a tile position `(r, c)`, the load of tile pixel `contour.x * r + c`
or the store of that pixel to offset `(x0 + r) * image_y + y0 + c`. -/
def TileAccess (image_y : Nat) (contour : ppm_image) (x0 y0 : Nat) (e : march_access) :
    Prop :=
  ∃ r c, r < contour.x ∧ c < contour.y ∧
    (e = march_access.load_tile ((contour.x * r + c : Nat) : Int) ∨
      e = march_access.store_pixel (((x0 + r) * image_y + y0 + c : Nat) : Int)
        (contour.data ((contour.x * r + c : Nat) : Int)))

/-- The accesses of `march` for worker `thread_id`: for a cell `(i, j)` of the worker's
row range, the loads of the four corners, the load of the tile pointer, or an access of
the `update_image` call for that cell. -/
def MarchAccess (thread_id nr_th : Nat) (image : ppm_image) (grid : grid_t)
    (contour_map : Nat → ppm_image) (step_x step_y : Nat) (e : march_access) : Prop :=
  ∃ i j, part_start thread_id nr_th (image.x / step_x) ≤ i ∧
    i < part_end thread_id nr_th (image.x / step_x) ∧ j < image.y / step_y ∧
    (e = march_access.load_cell i j ∨ e = march_access.load_cell i (j + 1) ∨
      e = march_access.load_cell (i + 1) (j + 1) ∨ e = march_access.load_cell (i + 1) j ∨
      e = march_access.load_map (config_code grid i j) ∨
      TileAccess image.y (contour_map (config_code grid i j)) (i * step_x) (j * step_y) e)

/-! ## `main` (lines 324-343): the working image and the grid handed to the workers -/

/-- Lines 332-343 of `main`: the grid allocated for the input `image`; `fresh` and `junk`
are the contents of the newly allocated image buffer and grid. -/
def main_grid (image : ppm_image) (fresh : Int → ppm_pixel) (junk : grid_t) : grid_alloc :=
  sample_grid (main_picture image (rescale_image image fresh)) STEP STEP ⟨SIGMA, by decide⟩
    junk

/-- Lines 217-256 of `f` as started by `main` (lines 354-366): the `picture` of a worker.
`par->new_image` is the image `rescale_image` returned, whose buffer holds `resampled`
once the workers have passed the first barrier. -/
def worker_picture (image : ppm_image) (fresh resampled : Int → ppm_pixel) : ppm_image :=
  f_picture image
    { x := (rescale_image image fresh).x
      y := (rescale_image image fresh).y
      data := resampled }

/-- The solid black 16 x 16 image. -/
def black_image : ppm_image :=
  { x := 16, y := 16, data := fun _ => black }

/-- A black image of 72 rows of 8 pixels (576 pixels); the memory after the buffer is
black as well. -/
def narrow_image : ppm_image :=
  { x := 72, y := 8, data := fun _ => black }

/-- The same 72 x 8 black image, with a white pixel in the memory after the buffer, at
offset 583. -/
def narrow_image_alt : ppm_image :=
  { x := 72, y := 8, data := fun k => if k = 583 then white else black }

/-- A black image of 16 rows of 1 pixel. -/
def tall_image : ppm_image :=
  { x := 16, y := 1, data := fun _ => black }

end MarchingSquares

namespace MarchingSquares

/-! ## Loops and legal steps -/

section Steps

variable {σ κ β τ : Type} {I : σ → Prop} {rd : σ → κ → β} {Legal : κ → β → Prop}

theorem LegalStep.comp {f g : σ → σ} (hf : LegalStep I rd Legal f)
    (hg : LegalStep I rd Legal g) : LegalStep I rd Legal (fun s => g (f s)) := by
  intro s hs
  obtain ⟨hI, hfr⟩ := hf s hs
  obtain ⟨hI2, hgr⟩ := hg (f s) hI
  refine ⟨hI2, fun k => ?_⟩
  rcases hgr k with h | h
  · rcases hfr k with h2 | h2
    · exact Or.inl (h.trans h2)
    · exact Or.inr (h ▸ h2)
  · exact Or.inr h

theorem LegalStep.mono {Legal2 : κ → β → Prop} {f : σ → σ} (hf : LegalStep I rd Legal f)
    (h : ∀ k v, Legal k v → Legal2 k v) : LegalStep I rd Legal2 f := by
  intro s hs
  obtain ⟨hI, hfr⟩ := hf s hs
  exact ⟨hI, fun k => (hfr k).imp id (h k _)⟩

theorem LegalStep.stable {f : σ → σ} (hf : LegalStep I rd Legal f) {s : σ} (hs : I s)
    {k : κ} (hk : Legal k (rd s k)) : Legal k (rd (f s) k) := by
  rcases (hf s hs).2 k with h | h
  · rw [h]; exact hk
  · exact h

theorem LegalStep.foldl (W : τ → σ → σ) (L : List τ)
    (h : ∀ t ∈ L, LegalStep I rd Legal (W t)) :
    LegalStep I rd Legal (fun s => L.foldl (fun acc t => W t acc) s) := by
  induction L with
  | nil => intro s hs; exact ⟨hs, fun _ => Or.inl rfl⟩
  | cons t L ih =>
    have h1 := h t (List.mem_cons_self t L)
    have h2 := ih (fun u hu => h u (List.mem_cons_of_mem t hu))
    exact LegalStep.comp h1 h2

theorem LegalStep.cover (W : τ → σ → σ) (L : List τ)
    (h : ∀ t ∈ L, LegalStep I rd Legal (W t)) {t0 : τ} (ht0 : t0 ∈ L) {k : κ}
    (hc : ∀ s, I s → Legal k (rd (W t0 s) k)) :
    ∀ s, I s → Legal k (rd (L.foldl (fun acc t => W t acc) s) k) := by
  induction L with
  | nil => simp at ht0
  | cons t L ih =>
    intro s hs
    have hrest := LegalStep.foldl W L (fun u hu => h u (List.mem_cons_of_mem t hu))
    have hIt := (h t (List.mem_cons_self t L) s hs).1
    rcases List.mem_cons.1 ht0 with heq | hmem
    · subst heq
      exact hrest.stable hIt (hc s hs)
    · exact ih (fun u hu => h u (List.mem_cons_of_mem t hu)) hmem (W t s) hIt

theorem for_loop_legal (a b : Nat) (body : Nat → σ → σ)
    (h : ∀ i, a ≤ i → i < b → LegalStep I rd Legal (body i)) :
    LegalStep I rd Legal (for_loop a b body) := by
  refine LegalStep.foldl body (List.range' a (b - a)) (fun i hi => ?_)
  have := List.mem_range'_1.1 hi
  exact h i this.1 (by omega)

theorem for_loop_cover (a b : Nat) (body : Nat → σ → σ)
    (h : ∀ i, a ≤ i → i < b → LegalStep I rd Legal (body i)) {i0 : Nat} (h1 : a ≤ i0)
    (h2 : i0 < b) {k : κ} (hc : ∀ s, I s → Legal k (rd (body i0 s) k)) :
    ∀ s, I s → Legal k (rd (for_loop a b body s) k) := by
  refine LegalStep.cover body (List.range' a (b - a)) (fun i hi => ?_) ?_ hc
  · have := List.mem_range'_1.1 hi
    exact h i this.1 (by omega)
  · exact List.mem_range'_1.2 ⟨h1, by omega⟩

end Steps

/-! ## The work partition covers every index -/

theorem part_end_le (t n N : Nat) : part_end t n N ≤ N := by
  unfold part_end; omega

theorem part_cover {n N r : Nat} (hn : 1 ≤ n) (hr : r < N) :
    ∃ t, t < n ∧ part_start t n N ≤ r ∧ r < part_end t n N := by
  have hN : 0 < N := by omega
  have hn0 : 0 < n := hn
  have hpos : 0 < (r + 1) * n := Nat.mul_pos (by omega) hn0
  refine ⟨((r + 1) * n - 1) / N, ?_, ?_, ?_⟩
  · rw [Nat.div_lt_iff_lt_mul hN]
    have : (r + 1) * n ≤ N * n := Nat.mul_le_mul_right n hr
    rw [Nat.mul_comm n N]; omega
  · unfold part_start
    have h1 : ((r + 1) * n - 1) / N * N ≤ (r + 1) * n - 1 := Nat.div_mul_le_self _ _
    have : ((r + 1) * n - 1) / N * N / n < r + 1 := by
      rw [Nat.div_lt_iff_lt_mul hn0]; omega
    omega
  · unfold part_end
    have h2 : (r + 1) * n - 1 < (((r + 1) * n - 1) / N + 1) * N := by
      have := Nat.lt_succ_iff.2 (Nat.le_refl (((r + 1) * n - 1) / N))
      rw [Nat.div_lt_iff_lt_mul hN] at this
      exact this
    have : r + 1 ≤ (((r + 1) * n - 1) / N + 1) * N / n := by
      rw [Nat.le_div_iff_mul_le hn0]; omega
    omega

/-! ## The sampling phase -/

theorem f_sample_eq (t n : Nat) (picture : ppm_image) (step_x step_y : Nat) (g : grid_t) :
    f_sample t n picture step_x step_y g =
      sample_last_row (part_start t n (picture.y / step_y)) (part_end t n (picture.y / step_y))
        picture step_x step_y
        (sample_last_col (part_start t n (picture.x / step_x))
          (part_end t n (picture.x / step_x)) picture step_x step_y
          (grid_set
            (sample_regular (part_start t n (picture.x / step_x))
              (part_end t n (picture.x / step_x)) picture step_x step_y g)
            (picture.x / step_x) (picture.y / step_y) 0)) := rfl

theorem grid_set_legal {Legal : Nat × Nat → Fin 256 → Prop} (i j : Nat) (v : Fin 256)
    (h : Legal (i, j) v) :
    LegalStep (fun _ => True) grid_rd Legal (fun g => grid_set g i j v) := by
  intro s _
  refine ⟨trivial, fun k => ?_⟩
  obtain ⟨a, b⟩ := k
  simp only [grid_rd, grid_set]
  split_ifs with hk
  · obtain ⟨rfl, rfl⟩ := hk
    exact Or.inr h
  · exact Or.inl rfl

theorem grid_set_cover {Legal : Nat × Nat → Fin 256 → Prop} (i j : Nat) (v : Fin 256)
    (h : Legal (i, j) v) (g : grid_t) : Legal (i, j) (grid_rd (grid_set g i j v) (i, j)) := by
  simpa [grid_rd, grid_set] using h

theorem legal_regular (picture : ppm_image) (step_x step_y i j : Nat)
    (hi : i < picture.x / step_x) (hj : j < picture.y / step_y) :
    SampleLegal picture step_x step_y (i, j)
      (sample_cell (picture.data ((i * step_x * picture.y + j * step_y : Nat) : Int))
        ⟨SIGMA, by decide⟩) := by
  refine ⟨Nat.le_of_lt hi, Nat.le_of_lt hj, ?_⟩
  simp only [sampled, if_pos hi, if_pos hj]

theorem legal_last_col (picture : ppm_image) (step_x step_y i : Nat)
    (hi : i < picture.x / step_x) :
    SampleLegal picture step_x step_y (i, picture.y / step_y)
      (sample_cell (picture.data (((i * step_x * picture.y + picture.x : Nat) : Int) - 1))
        ⟨SIGMA, by decide⟩) := by
  refine ⟨Nat.le_of_lt hi, Nat.le_refl _, ?_⟩
  simp only [sampled, if_pos hi, if_neg (Nat.lt_irrefl _)]

theorem legal_last_row (picture : ppm_image) (step_x step_y j : Nat)
    (hj : j < picture.y / step_y) :
    SampleLegal picture step_x step_y (picture.x / step_x, j)
      (sample_cell
        (picture.data (((picture.x : Int) - 1) * (picture.y : Int) + ((j * step_y : Nat) : Int)))
        ⟨SIGMA, by decide⟩) := by
  refine ⟨Nat.le_refl _, Nat.le_of_lt hj, ?_⟩
  simp only [sampled, if_pos hj, if_neg (Nat.lt_irrefl _)]

theorem legal_corner (picture : ppm_image) (step_x step_y : Nat) :
    SampleLegal picture step_x step_y (picture.x / step_x, picture.y / step_y) 0 := by
  refine ⟨Nat.le_refl _, Nat.le_refl _, ?_⟩
  simp only [sampled, if_neg (Nat.lt_irrefl _)]

theorem sample_regular_legal (start stop : Nat) (picture : ppm_image) (step_x step_y : Nat)
    (hstop : stop ≤ picture.x / step_x) :
    LegalStep (fun _ => True) grid_rd (SampleLegal picture step_x step_y)
      (sample_regular start stop picture step_x step_y) := by
  refine for_loop_legal _ _ _ (fun i _ hi => for_loop_legal _ _ _ (fun j _ hj => ?_))
  exact grid_set_legal i j _ (legal_regular picture step_x step_y i j (by omega) hj)

theorem sample_regular_cover (start stop : Nat) (picture : ppm_image) (step_x step_y : Nat)
    (hstop : stop ≤ picture.x / step_x) {a b : Nat} (h1 : start ≤ a) (h2 : a < stop)
    (hb : b < picture.y / step_y) (g : grid_t) :
    SampleLegal picture step_x step_y (a, b)
      (grid_rd (sample_regular start stop picture step_x step_y g) (a, b)) := by
  refine for_loop_cover (I := fun _ => True) start stop _
    (fun i _ hi => for_loop_legal _ _ _ (fun j _ hj => ?_)) h1 h2 (fun s hs => ?_) g trivial
  · exact grid_set_legal i j _ (legal_regular picture step_x step_y i j (by omega) hj)
  · refine for_loop_cover (I := fun _ => True) 0 _ _ (fun j _ hj => ?_) (Nat.zero_le b) hb
      (fun s2 _ => ?_) s hs
    · exact grid_set_legal a j _ (legal_regular picture step_x step_y a j (by omega) hj)
    · exact grid_set_cover a b _ (legal_regular picture step_x step_y a b (by omega) hb) s2

theorem sample_last_col_legal (start stop : Nat) (picture : ppm_image) (step_x step_y : Nat)
    (hstop : stop ≤ picture.x / step_x) :
    LegalStep (fun _ => True) grid_rd (SampleLegal picture step_x step_y)
      (sample_last_col start stop picture step_x step_y) := by
  refine for_loop_legal _ _ _ (fun i _ hi => ?_)
  exact grid_set_legal i _ _ (legal_last_col picture step_x step_y i (by omega))

theorem sample_last_col_cover (start stop : Nat) (picture : ppm_image) (step_x step_y : Nat)
    (hstop : stop ≤ picture.x / step_x) {a : Nat} (h1 : start ≤ a) (h2 : a < stop)
    (g : grid_t) :
    SampleLegal picture step_x step_y (a, picture.y / step_y)
      (grid_rd (sample_last_col start stop picture step_x step_y g) (a, picture.y / step_y)) := by
  refine for_loop_cover (I := fun _ => True) start stop _ (fun i _ hi => ?_) h1 h2
    (fun s _ => ?_) g trivial
  · exact grid_set_legal i _ _ (legal_last_col picture step_x step_y i (by omega))
  · exact grid_set_cover a _ _ (legal_last_col picture step_x step_y a (by omega)) s

theorem sample_last_row_legal (start stop : Nat) (picture : ppm_image) (step_x step_y : Nat)
    (hstop : stop ≤ picture.y / step_y) :
    LegalStep (fun _ => True) grid_rd (SampleLegal picture step_x step_y)
      (sample_last_row start stop picture step_x step_y) := by
  refine for_loop_legal _ _ _ (fun j _ hj => ?_)
  exact grid_set_legal _ j _ (legal_last_row picture step_x step_y j (by omega))

theorem sample_last_row_cover (start stop : Nat) (picture : ppm_image) (step_x step_y : Nat)
    (hstop : stop ≤ picture.y / step_y) {b : Nat} (h1 : start ≤ b) (h2 : b < stop)
    (g : grid_t) :
    SampleLegal picture step_x step_y (picture.x / step_x, b)
      (grid_rd (sample_last_row start stop picture step_x step_y g) (picture.x / step_x, b)) := by
  refine for_loop_cover (I := fun _ => True) start stop _ (fun j _ hj => ?_) h1 h2
    (fun s _ => ?_) g trivial
  · exact grid_set_legal _ j _ (legal_last_row picture step_x step_y j (by omega))
  · exact grid_set_cover _ b _ (legal_last_row picture step_x step_y b (by omega)) s

theorem f_sample_legal (t n : Nat) (picture : ppm_image) (step_x step_y : Nat) :
    LegalStep (fun _ => True) grid_rd (SampleLegal picture step_x step_y)
      (f_sample t n picture step_x step_y) := by
  have h1 := sample_regular_legal (part_start t n (picture.x / step_x))
    (part_end t n (picture.x / step_x)) picture step_x step_y (part_end_le _ _ _)
  have h2 : LegalStep (fun _ => True) grid_rd (SampleLegal picture step_x step_y)
      (fun g => grid_set g (picture.x / step_x) (picture.y / step_y) 0) :=
    grid_set_legal _ _ _ (legal_corner picture step_x step_y)
  have h3 := sample_last_col_legal (part_start t n (picture.x / step_x))
    (part_end t n (picture.x / step_x)) picture step_x step_y (part_end_le _ _ _)
  have h4 := sample_last_row_legal (part_start t n (picture.y / step_y))
    (part_end t n (picture.y / step_y)) picture step_x step_y (part_end_le _ _ _)
  exact ((h1.comp h2).comp h3).comp h4

/-- What one worker establishes: every cell of its row range, the corner cell, and the
cells of the last row in its column range hold their `sampled` value. -/
theorem f_sample_cover (t n : Nat) (picture : ppm_image) (step_x step_y : Nat) (g : grid_t)
    {a b : Nat}
    (h : (part_start t n (picture.x / step_x) ≤ a ∧ a < part_end t n (picture.x / step_x) ∧
            b ≤ picture.y / step_y) ∨
         (a = picture.x / step_x ∧ b = picture.y / step_y) ∨
         (a = picture.x / step_x ∧ part_start t n (picture.y / step_y) ≤ b ∧
            b < part_end t n (picture.y / step_y))) :
    SampleLegal picture step_x step_y (a, b)
      (grid_rd (f_sample t n picture step_x step_y g) (a, b)) := by
  have h2 : LegalStep (fun _ => True) grid_rd (SampleLegal picture step_x step_y)
      (fun g => grid_set g (picture.x / step_x) (picture.y / step_y) 0) :=
    grid_set_legal _ _ _ (legal_corner picture step_x step_y)
  have h3 := sample_last_col_legal (part_start t n (picture.x / step_x))
    (part_end t n (picture.x / step_x)) picture step_x step_y (part_end_le _ _ _)
  have h4 := sample_last_row_legal (part_start t n (picture.y / step_y))
    (part_end t n (picture.y / step_y)) picture step_x step_y (part_end_le _ _ _)
  rw [f_sample_eq]
  rcases h with ⟨ha1, ha2, hb⟩ | ⟨rfl, rfl⟩ | ⟨rfl, hb1, hb2⟩
  · rcases Nat.lt_or_ge b (picture.y / step_y) with hlt | hge
    · have c1 := sample_regular_cover _ _ picture step_x step_y (part_end_le _ _ _) ha1 ha2 hlt g
      exact h4.stable trivial (h3.stable trivial (h2.stable trivial c1))
    · obtain rfl : b = picture.y / step_y := Nat.le_antisymm hb hge
      exact h4.stable trivial
        (sample_last_col_cover _ _ picture step_x step_y (part_end_le _ _ _) ha1 ha2 _)
  · exact h4.stable trivial (h3.stable trivial
      (grid_set_cover _ _ _ (legal_corner picture step_x step_y) _))
  · exact sample_last_row_cover _ _ picture step_x step_y (part_end_le _ _ _) hb1 hb2 _

theorem sample_phase_legal (order : List Nat) (n : Nat) (picture : ppm_image)
    (step_x step_y : Nat) :
    LegalStep (fun _ => True) grid_rd (SampleLegal picture step_x step_y)
      (sample_phase order n picture step_x step_y) :=
  LegalStep.foldl (fun t g => f_sample t n picture step_x step_y g) order
    (fun t _ => f_sample_legal t n picture step_x step_y)

/-- Cells outside the `(p+1) x (q+1)` grid are never written. -/
theorem sample_phase_frame (order : List Nat) (n : Nat) (picture : ppm_image)
    (step_x step_y : Nat) (g : grid_t) {a b : Nat}
    (h : ¬ (a ≤ picture.x / step_x ∧ b ≤ picture.y / step_y)) :
    sample_phase order n picture step_x step_y g a b = g a b := by
  rcases (sample_phase_legal order n picture step_x step_y g trivial).2 (a, b) with h1 | h1
  · exact h1
  · exact absurd ⟨h1.1, h1.2.1⟩ h

/-- After all workers have sampled, every cell of the `(p+1) x (q+1)` grid holds its
`sampled` value, whatever the thread count and the order of the workers. -/
theorem sample_phase_spec (order : List Nat) (n : Nat) (hn : 1 ≤ n)
    (hall : ∀ t, t < n → t ∈ order) (picture : ppm_image) (step_x step_y : Nat) (g : grid_t)
    {a b : Nat} (ha : a ≤ picture.x / step_x) (hb : b ≤ picture.y / step_y) :
    sample_phase order n picture step_x step_y g a b = sampled picture step_x step_y a b := by
  have key : ∃ t, t ∈ order ∧
      ((part_start t n (picture.x / step_x) ≤ a ∧ a < part_end t n (picture.x / step_x) ∧
            b ≤ picture.y / step_y) ∨
         (a = picture.x / step_x ∧ b = picture.y / step_y) ∨
         (a = picture.x / step_x ∧ part_start t n (picture.y / step_y) ≤ b ∧
            b < part_end t n (picture.y / step_y))) := by
    rcases Nat.lt_or_ge a (picture.x / step_x) with hlt | hge
    · obtain ⟨t, ht, h1, h2⟩ := part_cover hn hlt
      exact ⟨t, hall t ht, Or.inl ⟨h1, h2, hb⟩⟩
    · have hae : a = picture.x / step_x := Nat.le_antisymm ha hge
      rcases Nat.lt_or_ge b (picture.y / step_y) with hlt | hge2
      · obtain ⟨t, ht, h1, h2⟩ := part_cover hn hlt
        exact ⟨t, hall t ht, Or.inr (Or.inr ⟨hae, h1, h2⟩)⟩
      · exact ⟨0, hall 0 hn, Or.inr (Or.inl ⟨hae, Nat.le_antisymm hb hge2⟩)⟩
  obtain ⟨t, ht, hcase⟩ := key
  have := LegalStep.cover (fun t g => f_sample t n picture step_x step_y g) order
    (fun t _ => f_sample_legal t n picture step_x step_y) ht
    (fun s _ => f_sample_cover t n picture step_x step_y s hcase) g trivial
  exact this.2.2

theorem perm_range_mem {order : List Nat} {n : Nat} (h : order.Perm (List.range n)) :
    ∀ t, t < n → t ∈ order :=
  fun _ ht => (h.mem_iff).2 (List.mem_range.2 ht)

/-! ## `update_image` -/

theorem rowcol_inj {y A B A2 B2 : Nat} (hB : B < y) (hB2 : B2 < y)
    (h : A * y + B = A2 * y + B2) : A = A2 ∧ B = B2 := by
  rcases Nat.lt_trichotomy A A2 with hlt | heq | hgt
  · have := Nat.mul_le_mul_right y (Nat.succ_le_of_lt hlt)
    rw [Nat.succ_mul] at this
    omega
  · subst heq
    exact ⟨rfl, by omega⟩
  · have := Nat.mul_le_mul_right y (Nat.succ_le_of_lt hgt)
    rw [Nat.succ_mul] at this
    omega

theorem update_legal {Legal : Int → ppm_pixel → Prop} (idx : Int) (v : ppm_pixel)
    (h : Legal idx v) :
    LegalStep (fun _ => True) data_rd Legal (fun data => Function.update data idx v) := by
  intro s _
  refine ⟨trivial, fun k => ?_⟩
  by_cases hk : k = idx
  · subst hk
    right
    simpa [data_rd] using h
  · left
    simp [data_rd, Function.update_noteq hk]

theorem update_cover {Legal : Int → ppm_pixel → Prop} (idx : Int) (v : ppm_pixel)
    (h : Legal idx v) (data : Int → ppm_pixel) :
    Legal idx (data_rd (Function.update data idx v) idx) := by
  simpa [data_rd] using h

theorem update_image_x (image contour : ppm_image) (x0 y0 : Nat) :
    (update_image image contour x0 y0).x = image.x := rfl

theorem update_image_y (image contour : ppm_image) (x0 y0 : Nat) :
    (update_image image contour x0 y0).y = image.y := rfl

/-- Every offset holds after `update_image` its old pixel or a pixel stored by the copy. -/
theorem update_image_frame (image contour : ppm_image) (x0 y0 : Nat) (k : Int) :
    (update_image image contour x0 y0).data k = image.data k ∨
      TileLegal image.y contour x0 y0 k ((update_image image contour x0 y0).data k) := by
  have h : LegalStep (fun _ => True) data_rd (TileLegal image.y contour x0 y0)
      (for_loop 0 contour.x (fun i data =>
        for_loop 0 contour.y (fun j data =>
          Function.update data (((x0 + i) * image.y + y0 + j : Nat) : Int)
            (contour.data ((contour.x * i + j : Nat) : Int))) data)) :=
    for_loop_legal _ _ _ (fun i _ hi => for_loop_legal _ _ _ (fun j _ hj =>
      update_legal _ _ ⟨i, j, hi, hj, rfl, rfl⟩))
  exact (h image.data trivial).2 k

/-- The offset of tile pixel `(r, c)` holds after `update_image` a pixel stored by the copy. -/
theorem update_image_cover (image contour : ppm_image) (x0 y0 : Nat) {r c : Nat}
    (hr : r < contour.x) (hc : c < contour.y) :
    TileLegal image.y contour x0 y0 (((x0 + r) * image.y + y0 + c : Nat) : Int)
      ((update_image image contour x0 y0).data (((x0 + r) * image.y + y0 + c : Nat) : Int)) := by
  have hinner : ∀ s : Int → ppm_pixel, True →
      TileLegal image.y contour x0 y0 (((x0 + r) * image.y + y0 + c : Nat) : Int)
        (data_rd (for_loop 0 contour.y (fun j data =>
          Function.update data (((x0 + r) * image.y + y0 + j : Nat) : Int)
            (contour.data ((contour.x * r + j : Nat) : Int))) s)
          (((x0 + r) * image.y + y0 + c : Nat) : Int)) :=
    for_loop_cover 0 contour.y _
      (fun j _ hj => update_legal _ _ ⟨r, j, hr, hj, rfl, rfl⟩) (Nat.zero_le c) hc
      (fun s2 _ => update_cover _ _ ⟨r, c, hr, hc, rfl, rfl⟩ s2)
  have h : ∀ s : Int → ppm_pixel, True →
      TileLegal image.y contour x0 y0 (((x0 + r) * image.y + y0 + c : Nat) : Int)
        (data_rd (for_loop 0 contour.x (fun i data =>
          for_loop 0 contour.y (fun j data =>
            Function.update data (((x0 + i) * image.y + y0 + j : Nat) : Int)
              (contour.data ((contour.x * i + j : Nat) : Int))) data) s)
          (((x0 + r) * image.y + y0 + c : Nat) : Int)) :=
    for_loop_cover 0 contour.x _
      (fun i _ hi => for_loop_legal _ _ _ (fun j _ hj =>
        update_legal _ _ ⟨i, j, hi, hj, rfl, rfl⟩))
      (Nat.zero_le r) hr hinner
  exact h image.data trivial

/-- When the tile fits into a row, the stores of `update_image` hit pairwise distinct
offsets, so a stored pixel is determined by its offset. -/
theorem TileLegal_unique {y : Nat} {contour : ppm_image} {x0 y0 r c : Nat} {v : ppm_pixel}
    (hfit : y0 + contour.y ≤ y) (hc : c < contour.y)
    (h : TileLegal y contour x0 y0 (((x0 + r) * y + y0 + c : Nat) : Int) v) :
    v = contour.data ((contour.x * r + c : Nat) : Int) := by
  obtain ⟨r2, c2, _, hc2, hk, hv⟩ := h
  have hk2 : (x0 + r) * y + (y0 + c) = (x0 + r2) * y + (y0 + c2) := by
    have := Int.ofNat_inj.1 hk
    omega
  obtain ⟨h1, h2⟩ := rowcol_inj (by omega) (by omega) hk2
  have hr : r = r2 := by omega
  have hc3 : c = c2 := by omega
  subst hr hc3
  exact hv

/-! ## `march` -/

theorem STEP_eq : STEP = 8 := rfl

theorem tile_legal_march (image : ppm_image) (grid : grid_t) (cm : Nat → ppm_image)
    {i j : Nat} (hi : i < image.x / STEP) (hj : j < image.y / STEP)
    (hx : (cm (config_code grid i j)).x = STEP) (hy : (cm (config_code grid i j)).y = STEP)
    (k : Int) (v : ppm_pixel)
    (h : TileLegal image.y (cm (config_code grid i j)) (i * STEP) (j * STEP) k v) :
    MarchLegal image grid cm k v := by
  obtain ⟨r, c, hr, hc, hk, hv⟩ := h
  rw [hx] at hr hv
  rw [hy] at hc
  rw [STEP_eq] at hi hj hr hc
  have h1 : (i * STEP + r) / STEP = i := by rw [STEP_eq]; omega
  have h2 : (i * STEP + r) % STEP = r := by rw [STEP_eq]; omega
  have h3 : (j * STEP + c) / STEP = j := by rw [STEP_eq]; omega
  have h4 : (j * STEP + c) % STEP = c := by rw [STEP_eq]; omega
  refine ⟨i * STEP + r, j * STEP + c, ?_, ?_, ?_, ?_⟩
  · rw [STEP_eq]; omega
  · rw [STEP_eq]; omega
  · rw [hk, Nat.add_assoc]
  · rw [h1, h2, h3, h4]; exact hv

theorem stamp_legal (image : ppm_image) (grid : grid_t) (cm : Nat → ppm_image)
    {i j : Nat} (hi : i < image.x / STEP) (hj : j < image.y / STEP)
    (hx : (cm (config_code grid i j)).x = STEP) (hy : (cm (config_code grid i j)).y = STEP) :
    LegalStep (fun img : ppm_image => img.x = image.x ∧ img.y = image.y) img_rd
      (MarchLegal image grid cm)
      (fun img => update_image img (cm (config_code grid i j)) (i * STEP) (j * STEP)) := by
  intro s hs
  refine ⟨⟨hs.1, hs.2⟩, fun k => ?_⟩
  rcases update_image_frame s (cm (config_code grid i j)) (i * STEP) (j * STEP) k with h | h
  · exact Or.inl h
  · right
    rw [hs.2] at h
    exact tile_legal_march image grid cm hi hj hx hy k _ h

theorem stamp_cover (image : ppm_image) (grid : grid_t) (cm : Nat → ppm_image)
    {i j : Nat} (hi : i < image.x / STEP) (hj : j < image.y / STEP)
    (hx : (cm (config_code grid i j)).x = STEP) (hy : (cm (config_code grid i j)).y = STEP)
    {r c : Nat} (hr : r < STEP) (hc : c < STEP) (s : ppm_image)
    (hs : s.x = image.x ∧ s.y = image.y) :
    MarchLegal image grid cm (((i * STEP + r) * image.y + j * STEP + c : Nat) : Int)
      (img_rd (update_image s (cm (config_code grid i j)) (i * STEP) (j * STEP))
        (((i * STEP + r) * image.y + j * STEP + c : Nat) : Int)) := by
  have h := update_image_cover s (cm (config_code grid i j)) (i * STEP) (j * STEP)
    (r := r) (c := c) (by rw [hx]; exact hr) (by rw [hy]; exact hc)
  rw [hs.2] at h
  exact tile_legal_march image grid cm hi hj hx hy _ _ h

theorem march_eq (image s : ppm_image) (hs : s.x = image.x ∧ s.y = image.y) (t n : Nat)
    (grid : grid_t) (cm : Nat → ppm_image) :
    march t n s grid cm STEP STEP =
      for_loop (part_start t n (image.x / STEP)) (part_end t n (image.x / STEP))
        (fun i img => for_loop 0 (image.y / STEP) (fun j img =>
          update_image img (cm (config_code grid i j)) (i * STEP) (j * STEP)) img) s := by
  simp only [march, hs.1, hs.2]

theorem march_legal (image : ppm_image) (grid : grid_t) (cm : Nat → ppm_image)
    (htile : ∀ i j, i < image.x / STEP → j < image.y / STEP →
      (cm (config_code grid i j)).x = STEP ∧ (cm (config_code grid i j)).y = STEP)
    (t n : Nat) :
    LegalStep (fun img : ppm_image => img.x = image.x ∧ img.y = image.y) img_rd
      (MarchLegal image grid cm) (fun img => march t n img grid cm STEP STEP) := by
  intro s hs
  have h : LegalStep (fun img : ppm_image => img.x = image.x ∧ img.y = image.y) img_rd
      (MarchLegal image grid cm)
      (for_loop (part_start t n (image.x / STEP)) (part_end t n (image.x / STEP))
        (fun i img => for_loop 0 (image.y / STEP) (fun j img =>
          update_image img (cm (config_code grid i j)) (i * STEP) (j * STEP)) img)) :=
    for_loop_legal _ _ _ (fun i _ hi => for_loop_legal _ _ _ (fun j _ hj =>
      have hi2 : i < image.x / STEP := Nat.lt_of_lt_of_le hi (part_end_le _ _ _)
      stamp_legal image grid cm hi2 hj (htile i j hi2 hj).1 (htile i j hi2 hj).2))
  have h2 := h s hs
  rw [← march_eq image s hs t n grid cm] at h2
  exact h2

theorem march_cover (image : ppm_image) (grid : grid_t) (cm : Nat → ppm_image)
    (htile : ∀ i j, i < image.x / STEP → j < image.y / STEP →
      (cm (config_code grid i j)).x = STEP ∧ (cm (config_code grid i j)).y = STEP)
    (t n : Nat) {i j r c : Nat} (hi1 : part_start t n (image.x / STEP) ≤ i)
    (hi2 : i < part_end t n (image.x / STEP)) (hj : j < image.y / STEP)
    (hr : r < STEP) (hc : c < STEP) (s : ppm_image) (hs : s.x = image.x ∧ s.y = image.y) :
    MarchLegal image grid cm (((i * STEP + r) * image.y + j * STEP + c : Nat) : Int)
      (img_rd (march t n s grid cm STEP STEP)
        (((i * STEP + r) * image.y + j * STEP + c : Nat) : Int)) := by
  have hi3 : i < image.x / STEP := Nat.lt_of_lt_of_le hi2 (part_end_le _ _ _)
  have hinner : ∀ s : ppm_image, (s.x = image.x ∧ s.y = image.y) →
      MarchLegal image grid cm (((i * STEP + r) * image.y + j * STEP + c : Nat) : Int)
        (img_rd (for_loop 0 (image.y / STEP) (fun j img =>
          update_image img (cm (config_code grid i j)) (i * STEP) (j * STEP)) s)
          (((i * STEP + r) * image.y + j * STEP + c : Nat) : Int)) :=
    for_loop_cover 0 (image.y / STEP) _
      (fun j2 _ hj2 => stamp_legal image grid cm hi3 hj2 (htile i j2 hi3 hj2).1
        (htile i j2 hi3 hj2).2)
      (Nat.zero_le j) hj
      (fun s2 hs2 => stamp_cover image grid cm hi3 hj (htile i j hi3 hj).1
        (htile i j hi3 hj).2 hr hc s2 hs2)
  have h : ∀ s : ppm_image, (s.x = image.x ∧ s.y = image.y) →
      MarchLegal image grid cm (((i * STEP + r) * image.y + j * STEP + c : Nat) : Int)
        (img_rd (for_loop (part_start t n (image.x / STEP)) (part_end t n (image.x / STEP))
          (fun i img => for_loop 0 (image.y / STEP) (fun j img =>
            update_image img (cm (config_code grid i j)) (i * STEP) (j * STEP)) img) s)
          (((i * STEP + r) * image.y + j * STEP + c : Nat) : Int)) :=
    for_loop_cover _ _ _
      (fun i2 _ hi4 => for_loop_legal _ _ _ (fun j2 _ hj2 =>
        have hi5 : i2 < image.x / STEP := Nat.lt_of_lt_of_le hi4 (part_end_le _ _ _)
        stamp_legal image grid cm hi5 hj2 (htile i2 j2 hi5 hj2).1 (htile i2 j2 hi5 hj2).2))
      hi1 hi2 hinner
  have h2 := h s hs
  rw [← march_eq image s hs t n grid cm] at h2
  exact h2

theorem march_phase_legal (order : List Nat) (n : Nat) (image : ppm_image) (grid : grid_t)
    (cm : Nat → ppm_image)
    (htile : ∀ i j, i < image.x / STEP → j < image.y / STEP →
      (cm (config_code grid i j)).x = STEP ∧ (cm (config_code grid i j)).y = STEP) :
    LegalStep (fun img : ppm_image => img.x = image.x ∧ img.y = image.y) img_rd
      (MarchLegal image grid cm) (fun img => march_phase order n img grid cm STEP STEP) :=
  LegalStep.foldl (fun t img => march t n img grid cm STEP STEP) order
    (fun t _ => march_legal image grid cm htile t n)

theorem MarchLegal_unique {image : ppm_image} {grid : grid_t} {cm : Nat → ppm_image}
    {a b : Nat} {v : ppm_pixel} (hb : b < STEP * (image.y / STEP))
    (h : MarchLegal image grid cm ((a * image.y + b : Nat) : Int) v) :
    v = (cm (config_code grid (a / STEP) (b / STEP))).data
          ((STEP * (a % STEP) + b % STEP : Nat) : Int) := by
  obtain ⟨a2, b2, _, hb2, hk, hv⟩ := h
  have hle : STEP * (image.y / STEP) ≤ image.y := Nat.mul_div_le _ _
  obtain ⟨h1, h2⟩ := rowcol_inj (by omega) (by omega) (Int.ofNat_inj.1 hk)
  subst h1 h2
  exact hv

/-- After all workers have marched, the pixel of row `a`, column `b` inside the stamped area
holds the tile pixel selected by the configuration code of its cell. -/
theorem march_phase_spec (order : List Nat) (n : Nat) (hn : 1 ≤ n)
    (hall : ∀ t, t < n → t ∈ order) (image : ppm_image) (grid : grid_t)
    (cm : Nat → ppm_image)
    (htile : ∀ i j, i < image.x / STEP → j < image.y / STEP →
      (cm (config_code grid i j)).x = STEP ∧ (cm (config_code grid i j)).y = STEP)
    {a b : Nat} (ha : a < STEP * (image.x / STEP)) (hb : b < STEP * (image.y / STEP)) :
    (march_phase order n image grid cm STEP STEP).data ((a * image.y + b : Nat) : Int) =
      (cm (config_code grid (a / STEP) (b / STEP))).data
        ((STEP * (a % STEP) + b % STEP : Nat) : Int) := by
  have hi : a / STEP < image.x / STEP := by rw [STEP_eq] at ha ⊢; omega
  have hj : b / STEP < image.y / STEP := by rw [STEP_eq] at hb ⊢; omega
  have hr : a % STEP < STEP := Nat.mod_lt _ (by decide)
  have hc : b % STEP < STEP := Nat.mod_lt _ (by decide)
  obtain ⟨t, ht, h1, h2⟩ := part_cover hn hi
  have hcov := LegalStep.cover (fun t img => march t n img grid cm STEP STEP) order
    (fun t _ => march_legal image grid cm htile t n) (hall t ht)
    (fun s hs => march_cover image grid cm htile t n h1 h2 hj hr hc s hs) image ⟨rfl, rfl⟩
  have e : (a / STEP * STEP + a % STEP) * image.y + b / STEP * STEP + b % STEP =
      a * image.y + b := by
    rw [Nat.div_add_mod' a STEP, Nat.add_assoc, Nat.div_add_mod' b STEP]
  rw [e] at hcov
  exact MarchLegal_unique hb hcov

/-- Offsets outside the stamped area keep their pixel. -/
theorem march_phase_frame (order : List Nat) (n : Nat) (image : ppm_image) (grid : grid_t)
    (cm : Nat → ppm_image)
    (htile : ∀ i j, i < image.x / STEP → j < image.y / STEP →
      (cm (config_code grid i j)).x = STEP ∧ (cm (config_code grid i j)).y = STEP)
    (k : Int)
    (hk : ∀ a b, a < STEP * (image.x / STEP) → b < STEP * (image.y / STEP) →
      k ≠ ((a * image.y + b : Nat) : Int)) :
    (march_phase order n image grid cm STEP STEP).data k = image.data k := by
  rcases (march_phase_legal order n image grid cm htile image ⟨rfl, rfl⟩).2 k with h | h
  · exact h
  · obtain ⟨a, b, ha, hb, hk2, _⟩ := h
    exact absurd hk2 (hk a b ha hb)

theorem march_phase_dims (order : List Nat) (n : Nat) (image : ppm_image) (grid : grid_t)
    (cm : Nat → ppm_image)
    (htile : ∀ i j, i < image.x / STEP → j < image.y / STEP →
      (cm (config_code grid i j)).x = STEP ∧ (cm (config_code grid i j)).y = STEP) :
    (march_phase order n image grid cm STEP STEP).x = image.x ∧
      (march_phase order n image grid cm STEP STEP).y = image.y :=
  (march_phase_legal order n image grid cm htile image ⟨rfl, rfl⟩).1

/-! ## Auxiliary facts for the main theorems -/

theorem ppm_image_eq {a b : ppm_image} (hx : a.x = b.x) (hy : a.y = b.y)
    (hd : ∀ k, a.data k = b.data k) : a = b := by
  cases a
  cases b
  simp only [ppm_image.mk.injEq] at *
  exact ⟨hx, hy, funext hd⟩

theorem sample_cell_eq (px : ppm_pixel) :
    sample_cell px ⟨SIGMA, by decide⟩ = if channel_average px ≤ SIGMA then 1 else 0 := by
  have h1 := px.red.isLt
  have h2 := px.green.isLt
  have h3 := px.blue.isLt
  have hmod : (px.red.val + px.green.val + px.blue.val) / 3 % 256 =
      (px.red.val + px.green.val + px.blue.val) / 3 := Nat.mod_eq_of_lt (by omega)
  simp only [sample_cell, channel_average, hmod]
  by_cases h : (px.red.val + px.green.val + px.blue.val) / 3 ≤ SIGMA
  · rw [if_neg (by omega), if_pos h]
  · rw [if_pos (by omega), if_neg h]

theorem sample_cell_le_one (px : ppm_pixel) (sigma : Fin 256) :
    (sample_cell px sigma).val ≤ 1 := by
  simp only [sample_cell]
  split_ifs <;> simp

theorem sampled_le_one (picture : ppm_image) (step_x step_y a b : Nat) :
    (sampled picture step_x step_y a b).val ≤ 1 := by
  unfold sampled
  split_ifs
  · exact sample_cell_le_one _ _
  · exact sample_cell_le_one _ _
  · exact sample_cell_le_one _ _
  · simp

theorem config_of_corners_binary {tl tr br bl : Fin 256} (h1 : tl.val ≤ 1) (h2 : tr.val ≤ 1)
    (h3 : br.val ≤ 1) (h4 : bl.val ≤ 1) :
    config_of_corners tl tr br bl = 8 * tl.val + 4 * tr.val + 2 * br.val + 1 * bl.val ∧
      config_of_corners tl tr br bl ≤ 15 := by
  unfold config_of_corners
  omega

theorem config_code_binary {grid : grid_t} {p q : Nat}
    (hbin : ∀ a b, a ≤ p → b ≤ q → (grid a b).val ≤ 1) {i j : Nat} (hi : i < p) (hj : j < q) :
    config_code grid i j =
        8 * (grid i j).val + 4 * (grid i (j + 1)).val + 2 * (grid (i + 1) (j + 1)).val +
          1 * (grid (i + 1) j).val ∧
      config_code grid i j ≤ 15 :=
  config_of_corners_binary (hbin i j (by omega) (by omega)) (hbin i (j + 1) (by omega) hj)
    (hbin (i + 1) (j + 1) hi hj) (hbin (i + 1) j hi (by omega))

theorem tiles_of_binary {image : ppm_image} {grid : grid_t} {cm : Nat → ppm_image}
    (hbin : ∀ a b, a ≤ image.x / STEP → b ≤ image.y / STEP → (grid a b).val ≤ 1)
    (htiles : ∀ k, k < CONTOUR_CONFIG_COUNT → (cm k).x = STEP ∧ (cm k).y = STEP) :
    ∀ i j, i < image.x / STEP → j < image.y / STEP →
      (cm (config_code grid i j)).x = STEP ∧ (cm (config_code grid i j)).y = STEP := by
  intro i j hi hj
  have := (config_code_binary hbin hi hj).2
  exact htiles _ (by unfold CONTOUR_CONFIG_COUNT; omega)

theorem config_code_congr {g1 g2 : grid_t} {p q : Nat}
    (h : ∀ a b, a ≤ p → b ≤ q → g1 a b = g2 a b) {i j : Nat} (hi : i < p) (hj : j < q) :
    config_code g1 i j = config_code g2 i j := by
  unfold config_code
  rw [h i j (by omega) (by omega), h i (j + 1) (by omega) hj, h (i + 1) (j + 1) hi hj,
    h (i + 1) j hi (by omega)]

theorem for_loop_succ {σ : Type} (a b : Nat) (h : a ≤ b) (body : Nat → σ → σ) (s : σ) :
    for_loop a (b + 1) body s = body b (for_loop a b body s) := by
  unfold for_loop
  have e : b + 1 - a = (b - a) + 1 := by omega
  rw [e, List.range'_concat, List.foldl_append]
  simp only [List.foldl_cons, List.foldl_nil, Nat.one_mul]
  congr 1
  omega

theorem for_loop_self {σ : Type} (a : Nat) (body : Nat → σ → σ) (s : σ) :
    for_loop a a body s = s := by
  simp [for_loop]

theorem alloc_rows (N : Nat) (v : Option Nat) (m : Nat) (hm : m ≤ N) :
    for_loop 0 m (fun i (rows : List (Option Nat)) => rows.set i v) (List.replicate N none) =
      List.replicate m v ++ List.replicate (N - m) none := by
  induction m with
  | zero => simp [for_loop_self]
  | succ m ih =>
    rw [for_loop_succ 0 m (Nat.zero_le m), ih (by omega)]
    have e : N - m = (N - (m + 1)) + 1 := by omega
    rw [e, List.replicate_succ, List.set_append_right _ _ (by simp)]
    simp [List.replicate_succ', List.append_assoc]

theorem sample_grid_rows (image : ppm_image) (step_x step_y : Nat) (sigma : Fin 256)
    (junk : grid_t) :
    (sample_grid image step_x step_y sigma junk).rows =
      List.replicate (min image.x RESCALE_X / step_x + 1)
        (some (min image.y RESCALE_Y / step_y + 1)) := by
  simp only [sample_grid]
  rw [alloc_rows _ _ _ (Nat.le_refl _)]
  simp

/-- What the code stores in the boundary column: the thresholded pixel at offset
`i * step_x * y + x - 1` (line 285). -/
theorem sample_phase_last_col (order : List Nat) (n : Nat) (hn : 1 ≤ n)
    (horder : order.Perm (List.range n)) (picture : ppm_image) (step_x step_y : Nat)
    (g : grid_t) {i : Nat} (hi : i < picture.x / step_x) :
    sample_phase order n picture step_x step_y g i (picture.y / step_y) =
      sample_cell (picture.data (((i * step_x * picture.y + picture.x : Nat) : Int) - 1))
        ⟨SIGMA, by decide⟩ := by
  rw [sample_phase_spec order n hn (perm_range_mem horder) picture step_x step_y g
    (Nat.le_of_lt hi) (Nat.le_refl _)]
  simp only [sampled, if_pos hi, if_neg (Nat.lt_irrefl _)]

/-- What the code stores in the boundary row: the thresholded pixel of the last image
row at column `j * step_y` (line 299). -/
theorem sample_phase_last_row (order : List Nat) (n : Nat) (hn : 1 ≤ n)
    (horder : order.Perm (List.range n)) (picture : ppm_image) (step_x step_y : Nat)
    (g : grid_t) {j : Nat} (hj : j < picture.y / step_y) :
    sample_phase order n picture step_x step_y g (picture.x / step_x) j =
      sample_cell
        (picture.data (((picture.x : Int) - 1) * (picture.y : Int) + ((j * step_y : Nat) : Int)))
        ⟨SIGMA, by decide⟩ := by
  rw [sample_phase_spec order n hn (perm_range_mem horder) picture step_x step_y g
    (Nat.le_refl _) (Nat.le_of_lt hj)]
  simp only [sampled, if_pos hj, if_neg (Nat.lt_irrefl _)]

/-- The march phase gives the same image for two grids that agree on the `(p+1) x (q+1)`
cells and hold 0/1 there, whatever the two thread counts and worker orders. -/
theorem march_phase_congr (image : ppm_image) (cm : Nat → ppm_image)
    (htiles : ∀ k, k < CONTOUR_CONFIG_COUNT → (cm k).x = STEP ∧ (cm k).y = STEP)
    (g1 g2 : grid_t)
    (hbin : ∀ a b, a ≤ image.x / STEP → b ≤ image.y / STEP → (g1 a b).val ≤ 1)
    (heq : ∀ a b, a ≤ image.x / STEP → b ≤ image.y / STEP → g1 a b = g2 a b)
    (n m : Nat) (hn : 1 ≤ n) (hm : 1 ≤ m) (o1 o2 : List Nat)
    (ho1 : ∀ t, t < n → t ∈ o1) (ho2 : ∀ t, t < m → t ∈ o2) :
    march_phase o1 n image g1 cm STEP STEP = march_phase o2 m image g2 cm STEP STEP := by
  have hbin2 : ∀ a b, a ≤ image.x / STEP → b ≤ image.y / STEP → (g2 a b).val ≤ 1 :=
    fun a b ha hb => by rw [← heq a b ha hb]; exact hbin a b ha hb
  have ht1 := tiles_of_binary hbin htiles
  have ht2 := tiles_of_binary hbin2 htiles
  apply ppm_image_eq
  · rw [(march_phase_dims o1 n image g1 cm ht1).1, (march_phase_dims o2 m image g2 cm ht2).1]
  · rw [(march_phase_dims o1 n image g1 cm ht1).2, (march_phase_dims o2 m image g2 cm ht2).2]
  · intro k
    by_cases hk : ∃ a b, a < STEP * (image.x / STEP) ∧ b < STEP * (image.y / STEP) ∧
        k = ((a * image.y + b : Nat) : Int)
    · obtain ⟨a, b, ha, hb, rfl⟩ := hk
      have hi : a / STEP < image.x / STEP := by rw [STEP_eq] at ha ⊢; omega
      have hj : b / STEP < image.y / STEP := by rw [STEP_eq] at hb ⊢; omega
      rw [march_phase_spec o1 n hn ho1 image g1 cm ht1 ha hb,
        march_phase_spec o2 m hm ho2 image g2 cm ht2 ha hb, config_code_congr heq hi hj]
    · have hk2 : ∀ a b, a < STEP * (image.x / STEP) → b < STEP * (image.y / STEP) →
          k ≠ ((a * image.y + b : Nat) : Int) := fun a b ha hb h => hk ⟨a, b, ha, hb, h⟩
      rw [march_phase_frame o1 n image g1 cm ht1 k hk2,
        march_phase_frame o2 m image g2 cm ht2 k hk2]

/-! ## The claims -/

/-- C2 (stamper postcondition).  Let `p = x / STEP`, `q = y / STEP`, let the grid hold 0/1 in
its `(p+1) x (q+1)` cells and let the 16 tiles be `STEP x STEP`.  After `march` has run for
all thread ids `0 .. n-1` (`n >= 1`, in any order), every pixel `(a, b)` with `a < STEP*p`,
`b < STEP*q` (offset `a*y + b`) equals pixel `(a mod STEP, b mod STEP)` of the tile selected
by the configuration code of cell `(a / STEP, b / STEP)`; every pixel with `a >= STEP*p` or
`b >= STEP*q` and the image dimensions are unchanged. -/
theorem stamper_postcondition (image : ppm_image) (grid : grid_t)
    (contour_map : Nat → ppm_image) (n : Nat) (hn : 1 ≤ n) (order : List Nat)
    (horder : order.Perm (List.range n))
    (hbin : ∀ a b, a ≤ image.x / STEP → b ≤ image.y / STEP → (grid a b).val ≤ 1)
    (htiles : ∀ k, k < CONTOUR_CONFIG_COUNT →
      (contour_map k).x = STEP ∧ (contour_map k).y = STEP) :
    (∀ a b, a < STEP * (image.x / STEP) → b < STEP * (image.y / STEP) →
      (march_phase order n image grid contour_map STEP STEP).data
          ((a * image.y + b : Nat) : Int) =
        (contour_map (config_code grid (a / STEP) (b / STEP))).data
          ((STEP * (a % STEP) + b % STEP : Nat) : Int)) ∧
    (∀ a b, b < image.y → (STEP * (image.x / STEP) ≤ a ∨ STEP * (image.y / STEP) ≤ b) →
      (march_phase order n image grid contour_map STEP STEP).data
          ((a * image.y + b : Nat) : Int) =
        image.data ((a * image.y + b : Nat) : Int)) ∧
    (march_phase order n image grid contour_map STEP STEP).x = image.x ∧
    (march_phase order n image grid contour_map STEP STEP).y = image.y := by
  have ht := tiles_of_binary hbin htiles
  refine ⟨fun a b ha hb => ?_, fun a b hb hout => ?_, ?_⟩
  · exact march_phase_spec order n hn (perm_range_mem horder) image grid contour_map ht ha hb
  · refine march_phase_frame order n image grid contour_map ht _ (fun a2 b2 ha2 hb2 h => ?_)
    have hle : STEP * (image.y / STEP) ≤ image.y := Nat.mul_div_le _ _
    obtain ⟨e1, e2⟩ := rowcol_inj hb (by omega) (Int.ofNat_inj.1 h)
    omega
  · exact march_phase_dims order n image grid contour_map ht

theorem stamper_postcondition_witness :
    (march_phase [1, 0] 2 grey_image ones_grid test_tiles STEP STEP).data 17 =
      (test_tiles 15).data 9 :=
  (stamper_postcondition grey_image ones_grid test_tiles 2 (by decide) [1, 0] (by decide)
    (fun _ _ _ _ => Nat.le_refl 1) (fun _ _ => ⟨rfl, rfl⟩)).1 1 1 (by decide) (by decide)

/-- C3 (configuration code).  For a grid whose `(p+1) x (q+1)` cells are 0 or 1 and a cell
`(i, j)` with `i < p`, `j < q`, the code `k` computed by `march` is
`8*grid[i][j] + 4*grid[i][j+1] + 2*grid[i+1][j+1] + 1*grid[i+1][j]`, it lies in `[0, 15]`,
and so it is an index into the 16-entry tile set. -/
theorem config_code_formula (grid : grid_t) (p q : Nat)
    (hbin : ∀ a b, a ≤ p → b ≤ q → (grid a b).val ≤ 1) (i j : Nat) (hi : i < p)
    (hj : j < q) :
    config_code grid i j =
        8 * (grid i j).val + 4 * (grid i (j + 1)).val + 2 * (grid (i + 1) (j + 1)).val +
          1 * (grid (i + 1) j).val ∧
      config_code grid i j ≤ 15 ∧ config_code grid i j < CONTOUR_CONFIG_COUNT := by
  obtain ⟨h1, h2⟩ := config_code_binary hbin hi hj
  exact ⟨h1, h2, by unfold CONTOUR_CONFIG_COUNT; omega⟩

theorem config_code_formula_witness :
    config_code ones_grid 0 1 =
        8 * (ones_grid 0 1).val + 4 * (ones_grid 0 2).val + 2 * (ones_grid 1 2).val +
          1 * (ones_grid 1 1).val ∧
      config_code ones_grid 0 1 ≤ 15 ∧ config_code ones_grid 0 1 < CONTOUR_CONFIG_COUNT :=
  config_code_formula ones_grid 1 2 (fun _ _ _ _ => Nat.le_refl 1) 0 1 (by decide) (by decide)

/-- C4 (threshold rule at regular sample points).  After the sampling code of all `n >= 1`
workers (in any order), for `i < p` and `j < q` the cell `grid[i][j]` is 1 if the channel
average of the pixel at image coordinate `(i*step_x, j*step_y)` is at most `SIGMA = 200`
and 0 otherwise; in particular an average of exactly 200 gives 1. -/
theorem threshold_rule (picture : ppm_image) (step_x step_y n : Nat) (hn : 1 ≤ n)
    (order : List Nat) (horder : order.Perm (List.range n)) (grid : grid_t) (i j : Nat)
    (hi : i < picture.x / step_x) (hj : j < picture.y / step_y) :
    sample_phase order n picture step_x step_y grid i j =
        (if channel_average
            (picture.data ((i * step_x * picture.y + j * step_y : Nat) : Int)) ≤ SIGMA
          then 1 else 0) ∧
      (channel_average (picture.data ((i * step_x * picture.y + j * step_y : Nat) : Int)) =
          SIGMA →
        sample_phase order n picture step_x step_y grid i j = 1) := by
  have h : sample_phase order n picture step_x step_y grid i j =
      (if channel_average
          (picture.data ((i * step_x * picture.y + j * step_y : Nat) : Int)) ≤ SIGMA
        then 1 else 0) := by
    rw [sample_phase_spec order n hn (perm_range_mem horder) picture step_x step_y grid
      (Nat.le_of_lt hi) (Nat.le_of_lt hj)]
    simp only [sampled, if_pos hi, if_pos hj]
    exact sample_cell_eq _
  exact ⟨h, fun he => by rw [h, if_pos (Nat.le_of_eq he)]⟩

theorem threshold_rule_witness :
    sample_phase [1, 0] 2 grey_image STEP STEP (fun _ _ => 7) 1 1 = 1 :=
  (threshold_rule grey_image STEP STEP 2 (by decide) [1, 0] (by decide) (fun _ _ => 7) 1 1
    (by decide) (by decide)).2 (by decide)

/-- C5 (boundary fill), evaluated on the image of 8 rows of 16 pixels that is black except
for a white pixel at row 0, column 7.  The last pixel of row 0, at `(0, y-1) = (0, 15)`, is
black, so its thresholded value is 1; the code reads offset `0*step_x*y + x - 1 = 7`
instead and stores 0 in the boundary-column cell `grid[0][q]`. -/
theorem boundary_column_reads_wrong_pixel :
    sample_phase [0] 1 wide_image STEP STEP ones_grid 0 (wide_image.y / STEP) = 0 ∧
      sample_cell (wide_image.data ((0 * STEP * wide_image.y + (wide_image.y - 1) : Nat) : Int))
        ⟨SIGMA, by decide⟩ = 1 := by
  decide

/-- C6 (boundary-forced zero).  After the sampling code of all `n >= 1` workers (in any
order) the cell `(p, q)`, `p = x / step_x`, `q = y / step_y`, is 0 whatever the image holds. -/
theorem boundary_forced_zero (picture : ppm_image) (step_x step_y n : Nat) (hn : 1 ≤ n)
    (order : List Nat) (horder : order.Perm (List.range n)) (grid : grid_t) :
    sample_phase order n picture step_x step_y grid (picture.x / step_x)
      (picture.y / step_y) = 0 := by
  rw [sample_phase_spec order n hn (perm_range_mem horder) picture step_x step_y grid
    (Nat.le_refl _) (Nat.le_refl _)]
  simp only [sampled, if_neg (Nat.lt_irrefl _)]

theorem boundary_forced_zero_witness :
    sample_phase [2, 0, 1] 3 wide_image STEP STEP ones_grid (wide_image.x / STEP)
      (wide_image.y / STEP) = 0 :=
  boundary_forced_zero wide_image STEP STEP 3 (by decide) [2, 0, 1] (by decide) ones_grid

/-- C7 (grid dimension invariant).  For an image of size `W x H`, `sample_grid` with step 8
allocates exactly `min(W, 2048) / 8 + 1` rows, each of exactly `min(H, 2048) / 8 + 1`
cells. -/
theorem sample_grid_dims (image : ppm_image) (sigma : Fin 256) (junk : grid_t) :
    (sample_grid image STEP STEP sigma junk).rows.length = min image.x 2048 / 8 + 1 ∧
      ∀ row ∈ (sample_grid image STEP STEP sigma junk).rows,
        row = some (min image.y 2048 / 8 + 1) := by
  rw [sample_grid_rows]
  refine ⟨by simp [RESCALE_X, STEP], fun row hrow => ?_⟩
  have := List.eq_of_mem_replicate hrow
  simpa [RESCALE_Y, STEP] using this

/-- C8 (downscale threshold).  `rescale_image` returns its argument itself exactly when
`image.x <= 2048` and `image.y <= 2048`; otherwise it returns a new image of dimensions
`2048 x 2048`.  A `2048 x 2048` image is passed through, a `2049 x 2048` image yields a
`2048 x 2048` image, and a worker of `f` selects the same working image as `main`. -/
theorem downscale_decision (image : ppm_image) (fresh : Int → ppm_pixel)
    (new_image : ppm_image) :
    (rescale_image image fresh = image ↔ (image.x ≤ 2048 ∧ image.y ≤ 2048)) ∧
    (¬ (image.x ≤ 2048 ∧ image.y ≤ 2048) →
      (rescale_image image fresh).x = 2048 ∧ (rescale_image image fresh).y = 2048) ∧
    (image.x = 2048 → image.y = 2048 → rescale_image image fresh = image) ∧
    (image.x = 2049 → image.y = 2048 →
      (rescale_image image fresh).x = 2048 ∧ (rescale_image image fresh).y = 2048) ∧
    f_picture image new_image = main_picture image new_image := by
  have hbig : ¬ (image.x ≤ 2048 ∧ image.y ≤ 2048) →
      (rescale_image image fresh).x = 2048 ∧ (rescale_image image fresh).y = 2048 := by
    intro h
    have h2 : ¬ (image.x ≤ RESCALE_X ∧ image.y ≤ RESCALE_Y) := h
    simp only [rescale_image, if_neg h2]
    exact ⟨rfl, rfl⟩
  have hsmall : (image.x ≤ 2048 ∧ image.y ≤ 2048) → rescale_image image fresh = image := by
    intro h
    have h2 : image.x ≤ RESCALE_X ∧ image.y ≤ RESCALE_Y := h
    simp only [rescale_image, if_pos h2]
  refine ⟨⟨fun h => ?_, hsmall⟩, hbig, fun h1 h2 => hsmall ⟨by omega, by omega⟩,
    fun h1 h2 => hbig (by omega), rfl⟩
  by_contra hc
  obtain ⟨hx, hy⟩ := hbig hc
  rw [h] at hx hy
  omega

/-- C9 (tile copy).  For a tile with `contour.x = contour.y = STEP` and an offset with
`x0 + STEP <= image.x`, `y0 + STEP <= image.y`, after `update_image(image, contour, x0, y0)`
the pixel of tile row `r`, column `c` (index `r*STEP + c`) is at image offset
`(x0 + r)*image.y + y0 + c` for all `r, c < STEP`, every pixel outside that block is
unchanged, and so are the dimensions. -/
theorem tile_copy (image contour : ppm_image) (x0 y0 : Nat) (hx : contour.x = STEP)
    (hy : contour.y = STEP) (_hfx : x0 + STEP ≤ image.x) (hfy : y0 + STEP ≤ image.y) :
    (∀ r c, r < STEP → c < STEP →
      (update_image image contour x0 y0).data (((x0 + r) * image.y + y0 + c : Nat) : Int) =
        contour.data ((r * STEP + c : Nat) : Int)) ∧
    (∀ k : Int,
      (∀ r c, r < STEP → c < STEP → k ≠ (((x0 + r) * image.y + y0 + c : Nat) : Int)) →
      (update_image image contour x0 y0).data k = image.data k) ∧
    (update_image image contour x0 y0).x = image.x ∧
    (update_image image contour x0 y0).y = image.y := by
  refine ⟨fun r c hr hc => ?_, fun k hk => ?_, rfl, rfl⟩
  · have hcov := update_image_cover image contour x0 y0 (r := r) (c := c)
      (by rw [hx]; exact hr) (by rw [hy]; exact hc)
    have := TileLegal_unique (by rw [hy]; exact hfy) (by rw [hy]; exact hc) hcov
    rw [this, hx, Nat.mul_comm STEP r]
  · rcases update_image_frame image contour x0 y0 k with h | h
    · exact h
    · obtain ⟨r, c, hr, hc, hk2, _⟩ := h
      rw [hx] at hr
      rw [hy] at hc
      exact absurd hk2 (hk r c hr hc)

theorem tile_copy_witness :
    (update_image grey_image (test_tiles 3) 8 8).data (((8 + 1) * 16 + 8 + 2 : Nat) : Int) =
      (test_tiles 3).data ((1 * STEP + 2 : Nat) : Int) :=
  (tile_copy grey_image (test_tiles 3) 8 8 rfl rfl (by decide) (by decide)).1 1 2
    (by decide) (by decide)

/-- C10 (configuration completeness).  On corner values 0/1 the code is the weighted sum
with weights 8, 4, 2, 1 on top-left, top-right, bottom-right, bottom-left, it is below 16,
and every code `0 .. 15` is produced by exactly one of the 16 corner combinations. -/
theorem config_completeness :
    (∀ tl tr br bl : Fin 2,
      config_of_corners (bit_cell tl) (bit_cell tr) (bit_cell br) (bit_cell bl) =
          8 * tl.val + 4 * tr.val + 2 * br.val + 1 * bl.val ∧
        config_of_corners (bit_cell tl) (bit_cell tr) (bit_cell br) (bit_cell bl) <
          CONTOUR_CONFIG_COUNT) ∧
    (∀ k : Fin 16, ∃! t : Fin 2 × Fin 2 × Fin 2 × Fin 2,
      config_of_corners (bit_cell t.1) (bit_cell t.2.1) (bit_cell t.2.2.1)
        (bit_cell t.2.2.2) = k.val) := by
  refine ⟨by decide, ?_⟩
  unfold ExistsUnique
  decide

/-! ## More on loops -/

theorem for_loop_invariant {σ : Type} (Inv : σ → Prop) (a b : Nat) (body : Nat → σ → σ)
    (h : ∀ i, a ≤ i → i < b → ∀ s, Inv s → Inv (body i s)) (s : σ) (hs : Inv s) :
    Inv (for_loop a b body s) := by
  have key : ∀ L : List Nat, (∀ i ∈ L, a ≤ i ∧ i < b) → ∀ s, Inv s →
      Inv (L.foldl (fun acc i => body i acc) s) := by
    intro L
    induction L with
    | nil => intro _ s hs; exact hs
    | cons i L ih =>
      intro hL s hs
      have hi := hL i (List.mem_cons_self i L)
      exact ih (fun j hj => hL j (List.mem_cons_of_mem i hj)) _ (h i hi.1 hi.2 s hs)
  refine key _ (fun i hi => ?_) s hs
  have := List.mem_range'_1.1 hi
  exact ⟨this.1, by omega⟩

theorem for_loop_sim {σ τ : Type} (R : σ → τ → Prop) (a b : Nat) (body1 : Nat → σ → σ)
    (body2 : Nat → τ → τ)
    (h : ∀ i, a ≤ i → i < b → ∀ s t, R s t → R (body1 i s) (body2 i t)) (s : σ) (t : τ)
    (hst : R s t) : R (for_loop a b body1 s) (for_loop a b body2 t) := by
  have key : ∀ L : List Nat, (∀ i ∈ L, a ≤ i ∧ i < b) → ∀ s t, R s t →
      R (L.foldl (fun acc i => body1 i acc) s) (L.foldl (fun acc i => body2 i acc) t) := by
    intro L
    induction L with
    | nil => intro _ s t hst; exact hst
    | cons i L ih =>
      intro hL s t hst
      have hi := hL i (List.mem_cons_self i L)
      exact ih (fun j hj => hL j (List.mem_cons_of_mem i hj)) _ _ (h i hi.1 hi.2 s t hst)
  refine key _ (fun i hi => ?_) s t hst
  have := List.mem_range'_1.1 hi
  exact ⟨this.1, by omega⟩

/-- A loop that only appends to a list keeps what the list held. -/
theorem for_loop_keeps {α : Type} (a b : Nat) (body : Nat → List α → List α)
    (hmono : ∀ i tr, ∀ e ∈ tr, e ∈ body i tr) (tr : List α) {e : α} (he : e ∈ tr) :
    e ∈ for_loop a b body tr :=
  for_loop_invariant (fun tr => e ∈ tr) a b body (fun i _ _ s hs => hmono i s e hs) tr he

/-- What iteration `i0` of a loop appends is in the list the loop yields. -/
theorem for_loop_mem {α : Type} (a b : Nat) (body : Nat → List α → List α)
    (hmono : ∀ i tr, ∀ e ∈ tr, e ∈ body i tr) {i0 : Nat} (h1 : a ≤ i0) (h2 : i0 < b) {e : α}
    (he : ∀ tr, e ∈ body i0 tr) (tr : List α) : e ∈ for_loop a b body tr := by
  have key : ∀ L : List Nat, i0 ∈ L → ∀ tr,
      e ∈ L.foldl (fun acc i => body i acc) tr := by
    intro L
    induction L with
    | nil => intro h; simp at h
    | cons i L ih =>
      intro hmem tr
      rcases List.mem_cons.1 hmem with heq | hin
      · subst heq
        have hrest : ∀ (L2 : List Nat) (tr2 : List α), e ∈ tr2 →
            e ∈ L2.foldl (fun acc i => body i acc) tr2 := by
          intro L2
          induction L2 with
          | nil => intro tr2 h; exact h
          | cons j L2 ih2 => intro tr2 h; exact ih2 _ (hmono j tr2 e h)
        exact hrest L _ (he tr)
      · exact ih hin _
  exact key _ (List.mem_range'_1.2 ⟨h1, by omega⟩) tr

/-! ## The work partition is exact -/

theorem part_start_mono {t t2 : Nat} (n N : Nat) (h : t ≤ t2) :
    part_start t n N ≤ part_start t2 n N :=
  Nat.div_le_div_right (Nat.mul_le_mul_right N h)

theorem part_end_le_next (t n N : Nat) : part_end t n N ≤ part_start (t + 1) n N := by
  unfold part_end part_start
  exact Nat.min_le_left _ _

theorem part_end_eq {t n N : Nat} (ht : t < n) : part_end t n N = part_start (t + 1) n N := by
  unfold part_end part_start
  have h1 : (t + 1) * N ≤ N * n := by
    rw [Nat.mul_comm N n]
    exact Nat.mul_le_mul_right N ht
  have h2 : (t + 1) * N / n ≤ N := Nat.div_le_of_le_mul (by rw [Nat.mul_comm n N]; exact h1)
  exact Nat.min_eq_left h2

/-- The ranges of two different workers have no index in common. -/
theorem part_disjoint {t t2 n N r : Nat} (hne : t ≠ t2)
    (h1 : part_start t n N ≤ r ∧ r < part_end t n N)
    (h2 : part_start t2 n N ≤ r ∧ r < part_end t2 n N) : False := by
  rcases Nat.lt_or_gt_of_ne hne with hlt | hgt
  · have a1 := part_end_le_next t n N
    have a2 : part_start (t + 1) n N ≤ part_start t2 n N := part_start_mono n N hlt
    omega
  · have a1 := part_end_le_next t2 n N
    have a2 : part_start (t2 + 1) n N ≤ part_start t n N := part_start_mono n N hgt
    omega

/-- C13 (partition exactness).  For every iteration count `N` and thread count `n >= 1`,
with `start(t) = t*N / n` and `end(t) = min((t+1)*N / n, N)`: `start(0) = 0`,
`end(n-1) = N`, `end(t) = start(t+1)` for `t < n-1`, `start(t) <= end(t) <= N` for `t < n`;
the ranges of two different workers are disjoint, their union is `[0, N)`, and every index
below `N` lies in the range of exactly one worker. -/
theorem partition_exact (N n : Nat) (hn : 1 ≤ n) :
    part_start 0 n N = 0 ∧
    part_end (n - 1) n N = N ∧
    (∀ t, t + 1 < n → part_end t n N = part_start (t + 1) n N) ∧
    (∀ t, t < n → part_start t n N ≤ part_end t n N ∧ part_end t n N ≤ N) ∧
    (∀ t t2 r, t < n → t2 < n → t ≠ t2 →
      ¬ ((part_start t n N ≤ r ∧ r < part_end t n N) ∧
         (part_start t2 n N ≤ r ∧ r < part_end t2 n N))) ∧
    (∀ r, r < N ↔ ∃ t, t < n ∧ part_start t n N ≤ r ∧ r < part_end t n N) ∧
    (∀ r, r < N → ∃! t, t < n ∧ part_start t n N ≤ r ∧ r < part_end t n N) := by
  refine ⟨?_, ?_, ?_, ?_, ?_, ?_, ?_⟩
  · simp [part_start]
  · have h : n - 1 + 1 = n := by omega
    unfold part_end
    rw [h, Nat.mul_div_cancel_left N (by omega : 0 < n)]
    exact Nat.min_self N
  · intro t ht
    exact part_end_eq (by omega)
  · intro t ht
    refine ⟨?_, part_end_le t n N⟩
    rw [part_end_eq ht]
    exact part_start_mono n N (Nat.le_succ t)
  · intro t t2 r _ _ hne h
    exact part_disjoint hne h.1 h.2
  · intro r
    refine ⟨fun hr => part_cover hn hr, fun h => ?_⟩
    obtain ⟨t, _, _, h2⟩ := h
    exact Nat.lt_of_lt_of_le h2 (part_end_le t n N)
  · intro r hr
    obtain ⟨t, ht, h1, h2⟩ := part_cover hn hr
    refine ⟨t, ⟨ht, h1, h2⟩, fun t2 h => ?_⟩
    by_contra hne
    exact part_disjoint hne ⟨h.2.1, h.2.2⟩ ⟨h1, h2⟩

theorem partition_exact_witness :
    part_start 0 3 10 = 0 ∧
    part_end (3 - 1) 3 10 = 10 ∧
    (∀ t, t + 1 < 3 → part_end t 3 10 = part_start (t + 1) 3 10) ∧
    (∀ t, t < 3 → part_start t 3 10 ≤ part_end t 3 10 ∧ part_end t 3 10 ≤ 10) ∧
    (∀ t t2 r, t < 3 → t2 < 3 → t ≠ t2 →
      ¬ ((part_start t 3 10 ≤ r ∧ r < part_end t 3 10) ∧
         (part_start t2 3 10 ≤ r ∧ r < part_end t2 3 10))) ∧
    (∀ r, r < 10 ↔ ∃ t, t < 3 ∧ part_start t 3 10 ≤ r ∧ r < part_end t 3 10) ∧
    (∀ r, r < 10 → ∃! t, t < 3 ∧ part_start t 3 10 ≤ r ∧ r < part_end t 3 10) :=
  partition_exact 10 3 (by decide)

/-! ## The accesses of the sampling code -/

theorem all_append_one {α : Type} {P : α → Prop} {tr : List α} {a : α}
    (h : ∀ e ∈ tr, P e) (ha : P a) : ∀ e ∈ tr ++ [a], P e := by
  intro e he
  rcases List.mem_append.1 he with h1 | h1
  · exact h e h1
  · rw [List.mem_singleton.1 h1]; exact ha

theorem all_append_pair {α : Type} {P : α → Prop} {tr : List α} {a b : α}
    (h : ∀ e ∈ tr, P e) (ha : P a) (hb : P b) : ∀ e ∈ tr ++ [a, b], P e := by
  intro e he
  rcases List.mem_append.1 he with h1 | h1
  · exact h e h1
  · rcases List.mem_cons.1 h1 with h2 | h2
    · rw [h2]; exact ha
    · rw [List.mem_singleton.1 h2]; exact hb

theorem replay_cells_append (tr tr2 : List sample_access) (g : grid_t) :
    replay_cells (tr ++ tr2) g = replay_cells tr2 (replay_cells tr g) :=
  List.foldl_append _ _ _ _

theorem replay_cells_load_store (tr : List sample_access) (k : Int) (i j : Nat)
    (v : Fin 256) (g : grid_t) :
    replay_cells (tr ++ [sample_access.load_pixel k, sample_access.store_cell i j v]) g =
      grid_set (replay_cells tr g) i j v := by
  simp [replay_cells, List.foldl_append, apply_sample_access]

/-- The stores listed by `f_sample_trace`, applied in order, are the effect of `f_sample`. -/
theorem f_sample_replay (t n : Nat) (picture : ppm_image) (step_x step_y : Nat)
    (g : grid_t) :
    replay_cells (f_sample_trace t n picture step_x step_y) g =
      f_sample t n picture step_x step_y g := by
  simp only [f_sample_trace, f_sample]
  refine for_loop_sim (fun tr gr => replay_cells tr g = gr) _ _ _ _ ?_ _ _ ?_
  · intro j _ _ tr gr h
    simp only [replay_cells_load_store]
    rw [h]
  refine for_loop_sim (fun tr gr => replay_cells tr g = gr) _ _ _ _ ?_ _ _ ?_
  · intro i _ _ tr gr h
    simp only [replay_cells_load_store]
    rw [h]
  have h1 : replay_cells
      (for_loop (part_start t n (picture.x / step_x)) (part_end t n (picture.x / step_x))
        (fun i tr =>
          for_loop 0 (picture.y / step_y) (fun j tr =>
            tr ++ [sample_access.load_pixel ((i * step_x * picture.y + j * step_y : Nat) : Int),
              sample_access.store_cell i j
                (sample_cell (picture.data ((i * step_x * picture.y + j * step_y : Nat) : Int))
                  ⟨SIGMA, by decide⟩)]) tr) []) g =
      for_loop (part_start t n (picture.x / step_x)) (part_end t n (picture.x / step_x))
        (fun i grid =>
          for_loop 0 (picture.y / step_y) (fun j grid =>
            grid_set grid i j
              (sample_cell (picture.data ((i * step_x * picture.y + j * step_y : Nat) : Int))
                ⟨SIGMA, by decide⟩)) grid) g := by
    refine for_loop_sim (fun tr gr => replay_cells tr g = gr) _ _ _ _ ?_ _ _ rfl
    intro i _ _ tr gr h
    refine for_loop_sim (fun tr gr => replay_cells tr g = gr) _ _ _ _ ?_ _ _ h
    intro j _ _ tr2 gr2 h2
    simp only [replay_cells_load_store]
    rw [h2]
  show replay_cells (_ ++ [_]) g = grid_set _ _ _ _
  rw [replay_cells_append, h1]
  rfl

/-- Every store of one worker's sampling code goes to a cell of the worker's row range, to
the corner cell `(p, q)`, or to a cell of the last row in the worker's column range. -/
theorem f_sample_trace_own (t n : Nat) (picture : ppm_image) (step_x step_y : Nat) :
    ∀ e ∈ f_sample_trace t n picture step_x step_y, OwnStore t n picture step_x step_y e := by
  simp only [f_sample_trace]
  refine for_loop_invariant (fun tr => ∀ e ∈ tr, OwnStore t n picture step_x step_y e)
    _ _ _ (fun j hj1 hj2 tr htr => ?_) _ ?_
  · refine all_append_pair htr (fun _ _ _ he => by cases he) (fun i2 j2 v2 he => ?_)
    cases he
    exact Or.inr (Or.inr ⟨rfl, hj1, hj2⟩)
  refine for_loop_invariant (fun tr => ∀ e ∈ tr, OwnStore t n picture step_x step_y e)
    _ _ _ (fun i hi1 hi2 tr htr => ?_) _ ?_
  · refine all_append_pair htr (fun _ _ _ he => by cases he) (fun i2 j2 v2 he => ?_)
    cases he
    exact Or.inl ⟨hi1, hi2, Nat.le_refl _⟩
  refine all_append_one ?_ (fun i2 j2 v2 he => ?_)
  · refine for_loop_invariant (fun tr => ∀ e ∈ tr, OwnStore t n picture step_x step_y e)
      _ _ _ (fun i hi1 hi2 tr htr => ?_) _ ?_
    · refine for_loop_invariant (fun tr => ∀ e ∈ tr, OwnStore t n picture step_x step_y e)
        _ _ _ (fun j _ hj2 tr2 htr2 => ?_) _ htr
      refine all_append_pair htr2 (fun _ _ _ he => by cases he) (fun i2 j2 v2 he => ?_)
      cases he
      exact Or.inl ⟨hi1, hi2, Nat.le_of_lt hj2⟩
    · intro e he
      simp at he
  · cases he
    exact Or.inr (Or.inl ⟨rfl, rfl⟩)

theorem f_sample_trace_stores (t n : Nat) (picture : ppm_image) (step_x step_y : Nat)
    {i j : Nat} {v : Fin 256}
    (h : sample_access.store_cell i j v ∈ f_sample_trace t n picture step_x step_y) :
    (part_start t n (picture.x / step_x) ≤ i ∧ i < part_end t n (picture.x / step_x) ∧
        j ≤ picture.y / step_y) ∨
      (i = picture.x / step_x ∧ j = picture.y / step_y) ∨
      (i = picture.x / step_x ∧ part_start t n (picture.y / step_y) ≤ j ∧
        j < part_end t n (picture.y / step_y)) :=
  f_sample_trace_own t n picture step_x step_y _ h i j v rfl

theorem mem_append_pair_snd {α : Type} (tr : List α) (a b : α) : b ∈ tr ++ [a, b] :=
  List.mem_append_right _ (List.mem_cons_of_mem _ (List.mem_singleton.2 rfl))

/-- Every cell of the worker's row range, the corner cell and the cells of the last row in
the worker's column range are stored to by the worker's sampling code. -/
theorem f_sample_trace_has (t n : Nat) (picture : ppm_image) (step_x step_y : Nat)
    {i j : Nat}
    (h : (part_start t n (picture.x / step_x) ≤ i ∧ i < part_end t n (picture.x / step_x) ∧
            j ≤ picture.y / step_y) ∨
         (i = picture.x / step_x ∧ j = picture.y / step_y) ∨
         (i = picture.x / step_x ∧ part_start t n (picture.y / step_y) ≤ j ∧
            j < part_end t n (picture.y / step_y))) :
    ∃ v, sample_access.store_cell i j v ∈ f_sample_trace t n picture step_x step_y := by
  simp only [f_sample_trace]
  rcases h with ⟨h1, h2, hj⟩ | ⟨rfl, rfl⟩ | ⟨rfl, h1, h2⟩
  · rcases Nat.lt_or_ge j (picture.y / step_y) with hlt | hge
    · refine ⟨sample_cell (picture.data ((i * step_x * picture.y + j * step_y : Nat) : Int))
        ⟨SIGMA, by decide⟩, ?_⟩
      refine for_loop_keeps _ _ _ (fun _ _ _ he => List.mem_append_left _ he) _
        (for_loop_keeps _ _ _ (fun _ _ _ he => List.mem_append_left _ he) _
          (List.mem_append_left _ ?_))
      refine for_loop_mem _ _ _
        (fun _ tr e he => for_loop_keeps _ _ _ (fun _ _ _ he2 => List.mem_append_left _ he2) tr he)
        h1 h2 (fun tr => ?_) _
      refine for_loop_mem _ _ _ ?_ (Nat.zero_le j) hlt ?_ tr
      · intro _ _ _ he
        exact List.mem_append_left _ he
      · intro tr2
        exact mem_append_pair_snd tr2 _ _
    · obtain rfl : j = picture.y / step_y := Nat.le_antisymm hj hge
      refine ⟨sample_cell
        (picture.data (((i * step_x * picture.y + picture.x : Nat) : Int) - 1))
        ⟨SIGMA, by decide⟩, ?_⟩
      refine for_loop_keeps _ _ _ (fun _ _ _ he => List.mem_append_left _ he) _ ?_
      refine for_loop_mem _ _ _ ?_ h1 h2 ?_ _
      · intro _ _ _ he
        exact List.mem_append_left _ he
      · intro tr
        exact mem_append_pair_snd tr _ _
  · exact ⟨0, for_loop_keeps _ _ _ (fun _ _ _ he => List.mem_append_left _ he) _
      (for_loop_keeps _ _ _ (fun _ _ _ he => List.mem_append_left _ he) _
        (List.mem_append_right _ (List.mem_singleton.2 rfl)))⟩
  · refine ⟨sample_cell
      (picture.data (((picture.x : Int) - 1) * (picture.y : Int) + ((j * step_y : Nat) : Int)))
      ⟨SIGMA, by decide⟩, ?_⟩
    refine for_loop_mem _ _ _ ?_ h1 h2 ?_ _
    · intro _ _ _ he
      exact List.mem_append_left _ he
    · intro tr
      exact mem_append_pair_snd tr _ _

/-- Every cell of the `(p+1) x (q+1)` grid belongs to some worker `t < n`. -/
theorem cell_owner {n : Nat} (hn : 1 ≤ n) (picture : ppm_image) (step_x step_y : Nat)
    {a b : Nat} (ha : a ≤ picture.x / step_x) (hb : b ≤ picture.y / step_y) :
    ∃ t, t < n ∧
      ((part_start t n (picture.x / step_x) ≤ a ∧ a < part_end t n (picture.x / step_x) ∧
            b ≤ picture.y / step_y) ∨
         (a = picture.x / step_x ∧ b = picture.y / step_y) ∨
         (a = picture.x / step_x ∧ part_start t n (picture.y / step_y) ≤ b ∧
            b < part_end t n (picture.y / step_y))) := by
  rcases Nat.lt_or_ge a (picture.x / step_x) with hlt | hge
  · obtain ⟨t, ht, h1, h2⟩ := part_cover hn hlt
    exact ⟨t, ht, Or.inl ⟨h1, h2, hb⟩⟩
  · have hae : a = picture.x / step_x := Nat.le_antisymm ha hge
    rcases Nat.lt_or_ge b (picture.y / step_y) with hlt | hge2
    · obtain ⟨t, ht, h1, h2⟩ := part_cover hn hlt
      exact ⟨t, ht, Or.inr (Or.inr ⟨hae, h1, h2⟩)⟩
    · exact ⟨0, hn, Or.inr (Or.inl ⟨hae, Nat.le_antisymm hb hge2⟩)⟩

theorem fin_binary {v : Fin 256} (h : v.val ≤ 1) : v = 0 ∨ v = 1 := by
  rcases Nat.le_one_iff_eq_zero_or_eq_one.1 h with h0 | h1
  · exact Or.inl (Fin.ext h0)
  · exact Or.inr (Fin.ext h1)

/-! ## Offsets of the pixels the sampling code loads -/

theorem idx_regular {x y i j : Nat} (hi : i < x / STEP) (hj : j < y / STEP) :
    i * STEP * y + j * STEP < x * y := by
  rw [STEP_eq] at hi hj ⊢
  have h1 : i * 8 + 1 ≤ x := by omega
  have h2 := Nat.mul_le_mul_right y h1
  rw [Nat.add_mul, Nat.one_mul] at h2
  omega

theorem idx_last_col {x y i : Nat} (hi : i < x / STEP) (hxy : x ≤ STEP * y) :
    1 ≤ i * STEP * y + x ∧ i * STEP * y + x ≤ x * y := by
  rw [STEP_eq] at hi hxy ⊢
  have h1 : i * 8 + 8 ≤ x := by omega
  have h2 := Nat.mul_le_mul_right y h1
  rw [Nat.add_mul] at h2
  omega

theorem idx_last_row {x y j : Nat} (hx : 1 ≤ x) (hj : j < y / STEP) :
    0 ≤ ((x : Int) - 1) * (y : Int) + ((j * STEP : Nat) : Int) ∧
      ((x : Int) - 1) * (y : Int) + ((j * STEP : Nat) : Int) < ((x * y : Nat) : Int) := by
  obtain ⟨x2, rfl⟩ : ∃ x2, x = x2 + 1 := ⟨x - 1, by omega⟩
  have e : (((x2 + 1 : Nat) : Int) - 1) * (y : Int) = ((x2 * y : Nat) : Int) := by
    push_cast
    ring
  rw [e]
  rw [STEP_eq] at hj ⊢
  have h : x2 * y + j * 8 < (x2 + 1) * y := by
    rw [Nat.add_mul, Nat.one_mul]
    omega
  constructor
  · exact_mod_cast Nat.zero_le (x2 * y + j * 8)
  · exact_mod_cast h

/-! ## Claims C11, C14, C15, C16 -/

/-- C11 (end-to-end, sampling step).  For a square working image all of whose `x*y` pixels
have channel average at most 200, after the sampling code of all `n >= 1` workers (in any
order) every cell of the `(p+1) x (q+1)` grid is 1, except the forced cell `(p, q)`, which
is 0. -/
theorem dark_square_grid (picture : ppm_image) (hsq : picture.x = picture.y)
    (hdark : ∀ k : Int, 0 ≤ k → k < ((picture.x * picture.y : Nat) : Int) →
      channel_average (picture.data k) ≤ SIGMA)
    (n : Nat) (hn : 1 ≤ n) (order : List Nat) (horder : order.Perm (List.range n))
    (grid : grid_t) (i j : Nat) (hi : i ≤ picture.x / STEP) (hj : j ≤ picture.y / STEP) :
    sample_phase order n picture STEP STEP grid i j =
      if i = picture.x / STEP ∧ j = picture.y / STEP then 0 else 1 := by
  rw [sample_phase_spec order n hn (perm_range_mem horder) picture STEP STEP grid hi hj]
  unfold sampled
  by_cases h1 : i < picture.x / STEP
  · have hne : ¬ (i = picture.x / STEP ∧ j = picture.y / STEP) := fun h => by omega
    rw [if_pos h1, if_neg hne]
    by_cases h2 : j < picture.y / STEP
    · rw [if_pos h2, sample_cell_eq, if_pos]
      exact hdark _ (Int.ofNat_nonneg _) (Int.ofNat_lt.2 (idx_regular h1 h2))
    · rw [if_neg h2, sample_cell_eq, if_pos]
      have hy : picture.x ≤ STEP * picture.y := by rw [← hsq, STEP_eq]; omega
      obtain ⟨b1, b2⟩ := idx_last_col h1 hy
      refine hdark _ ?_ ?_
      · omega
      · omega
  · have hip : i = picture.x / STEP := by omega
    rw [if_neg h1]
    by_cases h2 : j < picture.y / STEP
    · have hne : ¬ (i = picture.x / STEP ∧ j = picture.y / STEP) := fun h => by omega
      rw [if_pos h2, if_neg hne, sample_cell_eq, if_pos]
      have hx : 1 ≤ picture.x := by rw [hsq]; rw [STEP_eq] at h2; omega
      obtain ⟨b1, b2⟩ := idx_last_row hx h2
      exact hdark _ b1 b2
    · have hjq : j = picture.y / STEP := by omega
      rw [if_neg h2, if_pos ⟨hip, hjq⟩]

theorem dark_square_grid_witness :
    (sample_phase [1, 0] 2 black_image STEP STEP (fun _ _ => 7) 2 1 =
        if 2 = black_image.x / STEP ∧ 1 = black_image.y / STEP then 0 else 1) ∧
      (sample_phase [1, 0] 2 black_image STEP STEP (fun _ _ => 7) 2 2 =
        if 2 = black_image.x / STEP ∧ 2 = black_image.y / STEP then 0 else 1) :=
  ⟨dark_square_grid black_image rfl
      (fun _ _ _ => (by decide : channel_average black ≤ SIGMA)) 2 (by decide) [1, 0] (by decide)
      (fun _ _ => 7) 2 1 (by decide) (by decide),
    dark_square_grid black_image rfl
      (fun _ _ _ => (by decide : channel_average black ≤ SIGMA)) 2 (by decide) [1, 0] (by decide)
      (fun _ _ => 7) 2 2 (by decide) (by decide)⟩

/-- C14 as stated fails on the image of 8 rows of 16 pixels with two workers: both
workers store to the corner cell `(p, q) = (1, 2)`, so their sets of assigned cells are
not disjoint, and both store into the boundary row `p = 1` (worker 0 to column 0, worker 1
to column 1), so two workers do write into the same grid row. -/
theorem sampling_writes_not_disjoint :
    ¬ (∀ i j v v2,
        sample_access.store_cell i j v ∈ f_sample_trace 0 2 wide_image STEP STEP →
        sample_access.store_cell i j v2 ∈ f_sample_trace 1 2 wide_image STEP STEP → False) ∧
      ¬ (∀ i j j2 v v2,
        sample_access.store_cell i j v ∈ f_sample_trace 0 2 wide_image STEP STEP →
        sample_access.store_cell i j2 v2 ∈ f_sample_trace 1 2 wide_image STEP STEP → False) :=
  ⟨fun h => h 1 2 0 0 (by decide) (by decide), fun h => h 1 0 1 1 1 (by decide) (by decide)⟩

/-- C14, amended.  For two distinct thread ids, a grid cell that both workers store to
during the sampling phase can only be the forced cell `(p, q)`, and a grid row that both
workers store into can only be the boundary row `p`. -/
theorem sampling_writes_disjoint_off_boundary (picture : ppm_image) (step_x step_y n : Nat)
    (t t2 : Nat) (hne : t ≠ t2) (i j i2 j2 : Nat) (v v2 : Fin 256)
    (h1 : sample_access.store_cell i j v ∈ f_sample_trace t n picture step_x step_y)
    (h2 : sample_access.store_cell i2 j2 v2 ∈ f_sample_trace t2 n picture step_x step_y) :
    (i = i2 → j = j2 → i = picture.x / step_x ∧ j = picture.y / step_y) ∧
      (i = i2 → i = picture.x / step_x) := by
  have a := f_sample_trace_stores t n picture step_x step_y h1
  have b := f_sample_trace_stores t2 n picture step_x step_y h2
  have e1 := part_end_le t n (picture.x / step_x)
  have e2 := part_end_le t2 n (picture.x / step_x)
  have e3 := part_end_le t n (picture.y / step_y)
  have e4 := part_end_le t2 n (picture.y / step_y)
  have hrow : i = i2 → i = picture.x / step_x := by
    intro hi
    subst hi
    rcases a with ⟨a1, a2, _⟩ | ⟨a1, _⟩ | ⟨a1, _⟩
    · rcases b with ⟨b1, b2, _⟩ | ⟨b1, _⟩ | ⟨b1, _⟩
      · exact absurd (part_disjoint hne ⟨a1, a2⟩ ⟨b1, b2⟩) id
      · exact b1
      · exact b1
    · exact a1
    · exact a1
  refine ⟨fun hi hj => ⟨hrow hi, ?_⟩, hrow⟩
  have hp := hrow hi
  subst hi hj
  rcases a with ⟨_, a2, _⟩ | ⟨_, a2⟩ | ⟨_, a2, a3⟩
  · omega
  · exact a2
  · rcases b with ⟨_, b2, _⟩ | ⟨_, b2⟩ | ⟨_, b2, b3⟩
    · omega
    · exact b2
    · exact absurd (part_disjoint hne ⟨a2, a3⟩ ⟨b2, b3⟩) id

theorem sampling_writes_disjoint_off_boundary_witness :
    (1 = 1 → 0 = 1 → 1 = wide_image.x / STEP ∧ 0 = wide_image.y / STEP) ∧
      (1 = 1 → 1 = wide_image.x / STEP) :=
  sampling_writes_disjoint_off_boundary wide_image STEP STEP 2 0 1 (by decide) 1 0 1 1 1 1
    (by decide) (by decide)

/-- C15 (grid fully materialised and binary).  Once all `n >= 1` workers have run their
sampling code (in any order), every cell `grid[i][j]` with `i <= p`, `j <= q` has been stored
to by some worker and holds 0 or 1; so the four corner cells `march` reads for a cell
`(i, j)` with `i < p`, `j < q` hold 0 or 1. -/
theorem grid_materialised (picture : ppm_image) (step_x step_y n : Nat) (hn : 1 ≤ n)
    (order : List Nat) (horder : order.Perm (List.range n)) (grid : grid_t) :
    (∀ i j, i ≤ picture.x / step_x → j ≤ picture.y / step_y →
      (∃ t v, t < n ∧
        sample_access.store_cell i j v ∈ f_sample_trace t n picture step_x step_y) ∧
      (sample_phase order n picture step_x step_y grid i j = 0 ∨
        sample_phase order n picture step_x step_y grid i j = 1)) ∧
    (∀ i j, i < picture.x / step_x → j < picture.y / step_y →
      (sample_phase order n picture step_x step_y grid i j = 0 ∨
        sample_phase order n picture step_x step_y grid i j = 1) ∧
      (sample_phase order n picture step_x step_y grid i (j + 1) = 0 ∨
        sample_phase order n picture step_x step_y grid i (j + 1) = 1) ∧
      (sample_phase order n picture step_x step_y grid (i + 1) (j + 1) = 0 ∨
        sample_phase order n picture step_x step_y grid (i + 1) (j + 1) = 1) ∧
      (sample_phase order n picture step_x step_y grid (i + 1) j = 0 ∨
        sample_phase order n picture step_x step_y grid (i + 1) j = 1)) := by
  have hbin : ∀ i j, i ≤ picture.x / step_x → j ≤ picture.y / step_y →
      (sample_phase order n picture step_x step_y grid i j = 0 ∨
        sample_phase order n picture step_x step_y grid i j = 1) := by
    intro i j hi hj
    apply fin_binary
    rw [sample_phase_spec order n hn (perm_range_mem horder) picture step_x step_y grid hi hj]
    exact sampled_le_one picture step_x step_y i j
  refine ⟨fun i j hi hj => ⟨?_, hbin i j hi hj⟩, fun i j hi hj =>
    ⟨hbin i j (by omega) (by omega), hbin i (j + 1) (by omega) hj, hbin (i + 1) (j + 1) hi hj,
      hbin (i + 1) j hi (by omega)⟩⟩
  obtain ⟨t, ht, hcase⟩ := cell_owner hn picture step_x step_y hi hj
  obtain ⟨v, hv⟩ := f_sample_trace_has t n picture step_x step_y hcase
  exact ⟨t, v, ht, hv⟩

theorem grid_materialised_witness :
    (∃ t v, t < 2 ∧
        sample_access.store_cell 0 2 v ∈ f_sample_trace t 2 wide_image STEP STEP) ∧
      (sample_phase [1, 0] 2 wide_image STEP STEP (fun _ _ => 7) 0 2 = 0 ∨
        sample_phase [1, 0] 2 wide_image STEP STEP (fun _ _ => 7) 0 2 = 1) :=
  (grid_materialised wide_image STEP STEP 2 (by decide) [1, 0] (by decide) (fun _ _ => 7)).1
    0 2 (by decide) (by decide)

/-- C16 (sampling reads stay in bounds), evaluated on the black image of 16 rows of 1
pixel (16 pixels) with one worker: for `i = 1` the boundary-column read of line 285 loads
offset `1*8*1 + 16 - 1 = 23`, which is not below `x*y = 16`. -/
theorem boundary_column_read_out_of_bounds :
    sample_access.load_pixel 23 ∈ f_sample_trace 0 1 tall_image STEP STEP ∧
      ¬ ((23 : Int) < ((tall_image.x * tall_image.y : Nat) : Int)) := by
  decide

/-! ## The accesses of `update_image` and `march` -/

theorem replay_pixels_append (tr tr2 : List march_access) (d : Int → ppm_pixel) :
    replay_pixels (tr ++ tr2) d = replay_pixels tr2 (replay_pixels tr d) :=
  List.foldl_append _ _ _ _

theorem replay_pixels_load_store (tr : List march_access) (k idx : Int) (v : ppm_pixel)
    (d : Int → ppm_pixel) :
    replay_pixels (tr ++ [march_access.load_tile k, march_access.store_pixel idx v]) d =
      Function.update (replay_pixels tr d) idx v := by
  simp [replay_pixels, List.foldl_append, apply_march_access]

/-- The stores listed by `update_image_trace`, applied in order, are the effect of
`update_image`. -/
theorem update_image_replay (image contour : ppm_image) (x0 y0 : Nat) :
    (update_image image contour x0 y0).data =
      replay_pixels (update_image_trace image contour x0 y0) image.data := by
  simp only [update_image, update_image_trace]
  refine for_loop_sim (fun d tr => d = replay_pixels tr image.data) _ _ _ _ ?_ _ _ rfl
  intro i _ _ d tr h
  refine for_loop_sim (fun d tr => d = replay_pixels tr image.data) _ _ _ _ ?_ _ _ h
  intro j _ _ d2 tr2 h2
  simp only [replay_pixels_load_store]
  rw [h2]

theorem update_image_trace_congr {img image : ppm_image} (h : img.y = image.y)
    (contour : ppm_image) (x0 y0 : Nat) :
    update_image_trace img contour x0 y0 = update_image_trace image contour x0 y0 := by
  simp only [update_image_trace, h]

/-- The stores listed by `march_trace`, applied in order, are the effect of `march`. -/
theorem march_replay (t n : Nat) (image : ppm_image) (grid : grid_t) (cm : Nat → ppm_image)
    (step_x step_y : Nat) :
    (march t n image grid cm step_x step_y).x = image.x ∧
      (march t n image grid cm step_x step_y).y = image.y ∧
      (march t n image grid cm step_x step_y).data =
        replay_pixels (march_trace t n image grid cm step_x step_y) image.data := by
  simp only [march, march_trace]
  refine for_loop_sim
    (fun (img : ppm_image) (tr : List march_access) =>
      img.x = image.x ∧ img.y = image.y ∧ img.data = replay_pixels tr image.data)
    _ _ _ _ ?_ _ _ ⟨rfl, rfl, rfl⟩
  intro i _ _ img tr h
  refine for_loop_sim
    (fun (img : ppm_image) (tr : List march_access) =>
      img.x = image.x ∧ img.y = image.y ∧ img.data = replay_pixels tr image.data)
    _ _ _ _ ?_ _ _ h
  intro j _ _ img2 tr2 h2
  refine ⟨h2.1, h2.2.1, ?_⟩
  rw [update_image_replay, update_image_trace_congr h2.2.1, h2.2.2, replay_pixels_append,
    replay_pixels_append]
  rfl

theorem update_image_trace_access (image contour : ppm_image) (x0 y0 : Nat) :
    ∀ e ∈ update_image_trace image contour x0 y0, TileAccess image.y contour x0 y0 e := by
  simp only [update_image_trace]
  refine for_loop_invariant (fun tr => ∀ e ∈ tr, TileAccess image.y contour x0 y0 e)
    _ _ _ (fun i _ hi tr htr => ?_) _ ?_
  · refine for_loop_invariant (fun tr => ∀ e ∈ tr, TileAccess image.y contour x0 y0 e)
      _ _ _ (fun j _ hj tr2 htr2 => ?_) _ htr
    exact all_append_pair htr2 ⟨i, j, hi, hj, Or.inl rfl⟩ ⟨i, j, hi, hj, Or.inr rfl⟩
  · intro e he
    simp at he

theorem march_trace_access (t n : Nat) (image : ppm_image) (grid : grid_t)
    (cm : Nat → ppm_image) (step_x step_y : Nat) :
    ∀ e ∈ march_trace t n image grid cm step_x step_y,
      MarchAccess t n image grid cm step_x step_y e := by
  simp only [march_trace]
  refine for_loop_invariant
    (fun tr => ∀ e ∈ tr, MarchAccess t n image grid cm step_x step_y e)
    _ _ _ (fun i hi1 hi2 tr htr => ?_) _ ?_
  · refine for_loop_invariant
      (fun tr => ∀ e ∈ tr, MarchAccess t n image grid cm step_x step_y e)
      _ _ _ (fun j _ hj tr2 htr2 => ?_) _ htr
    intro e he
    rcases List.mem_append.1 he with h1 | h1
    · rcases List.mem_append.1 h1 with h2 | h2
      · exact htr2 e h2
      · refine ⟨i, j, hi1, hi2, hj, ?_⟩
        simp only [List.mem_cons, List.mem_singleton, List.not_mem_nil, or_false] at h2
        rcases h2 with h | h | h | h | h <;> subst h <;> simp
    · exact ⟨i, j, hi1, hi2, hj, Or.inr (Or.inr (Or.inr (Or.inr (Or.inr
        (update_image_trace_access image _ _ _ e h1)))))⟩
  · intro e he
    simp at he

/-! ## Claims C12, C17, C18 -/

theorem idx_stamp {x y i j r c : Nat} (hi : i < x / STEP) (hj : j < y / STEP)
    (hr : r < STEP) (hc : c < STEP) : (i * STEP + r) * y + j * STEP + c < x * y := by
  rw [STEP_eq] at hi hj hr hc ⊢
  have h1 : i * 8 + r + 1 ≤ x := by omega
  have h2 := Nat.mul_le_mul_right y h1
  rw [Nat.add_mul, Nat.one_mul] at h2
  omega

/-- C17 (stamping writes stay in bounds).  When the tiles `march` selects are
`STEP x STEP`, every store of `march` (any worker, any thread count) goes to an offset
`(i*STEP + r)*y + j*STEP + c` with `i < x/STEP`, `j < y/STEP`, `r, c < STEP`, which lies in
`[0, x*y)`, and every tile pixel loaded has an index `STEP*r + c` in `[0, STEP*STEP)`. -/
theorem stamping_in_bounds (image : ppm_image) (grid : grid_t) (cm : Nat → ppm_image)
    (htile : ∀ i j, i < image.x / STEP → j < image.y / STEP →
      (cm (config_code grid i j)).x = STEP ∧ (cm (config_code grid i j)).y = STEP)
    (t n : Nat) :
    ∀ e ∈ march_trace t n image grid cm STEP STEP,
      (∀ idx v, e = march_access.store_pixel idx v →
        (∃ i j r c, i < image.x / STEP ∧ j < image.y / STEP ∧ r < STEP ∧ c < STEP ∧
          idx = (((i * STEP + r) * image.y + j * STEP + c : Nat) : Int)) ∧
        0 ≤ idx ∧ idx < ((image.x * image.y : Nat) : Int)) ∧
      (∀ idx, e = march_access.load_tile idx →
        (∃ r c, r < STEP ∧ c < STEP ∧ idx = ((STEP * r + c : Nat) : Int)) ∧
        0 ≤ idx ∧ idx < ((STEP * STEP : Nat) : Int)) := by
  intro e he
  obtain ⟨i, j, _, hi2, hj, hcase⟩ := march_trace_access t n image grid cm STEP STEP e he
  have hi : i < image.x / STEP := Nat.lt_of_lt_of_le hi2 (part_end_le _ _ _)
  obtain ⟨hx, hy⟩ := htile i j hi hj
  constructor
  · intro idx v hst
    subst hst
    rcases hcase with h | h | h | h | h | h
    · cases h
    · cases h
    · cases h
    · cases h
    · cases h
    · obtain ⟨r, c, hr, hc, h2 | h2⟩ := h
      · cases h2
      · rw [hx] at hr
        rw [hy] at hc
        cases h2
        refine ⟨⟨i, j, r, c, hi, hj, hr, hc, rfl⟩, Int.ofNat_nonneg _, ?_⟩
        exact Int.ofNat_lt.2 (idx_stamp hi hj hr hc)
  · intro idx hld
    subst hld
    rcases hcase with h | h | h | h | h | h
    · cases h
    · cases h
    · cases h
    · cases h
    · cases h
    · obtain ⟨r, c, hr, hc, h2 | h2⟩ := h
      · rw [hx] at hr h2
        rw [hy] at hc
        cases h2
        refine ⟨⟨r, c, hr, hc, rfl⟩, Int.ofNat_nonneg _, Int.ofNat_lt.2 ?_⟩
        rw [STEP_eq] at hr hc ⊢
        omega
      · cases h2

theorem stamping_in_bounds_witness :
    (∀ idx v, march_access.store_pixel 17 (test_tiles 15 |>.data 9) =
        march_access.store_pixel idx v →
      (∃ i j r c, i < grey_image.x / STEP ∧ j < grey_image.y / STEP ∧ r < STEP ∧ c < STEP ∧
        idx = (((i * STEP + r) * grey_image.y + j * STEP + c : Nat) : Int)) ∧
      0 ≤ idx ∧ idx < ((grey_image.x * grey_image.y : Nat) : Int)) ∧
    (∀ idx, march_access.store_pixel 17 (test_tiles 15 |>.data 9) =
        march_access.load_tile idx →
      (∃ r c, r < STEP ∧ c < STEP ∧ idx = ((STEP * r + c : Nat) : Int)) ∧
      0 ≤ idx ∧ idx < ((STEP * STEP : Nat) : Int)) :=
  stamping_in_bounds grey_image ones_grid test_tiles (fun _ _ _ _ => ⟨rfl, rfl⟩) 0 1
    (march_access.store_pixel 17 (test_tiles 15 |>.data 9)) (by decide)

theorem worker_picture_dims (image : ppm_image) (fresh resampled : Int → ppm_pixel) :
    (worker_picture image fresh resampled).x =
        (main_picture image (rescale_image image fresh)).x ∧
      (worker_picture image fresh resampled).y =
        (main_picture image (rescale_image image fresh)).y ∧
      (worker_picture image fresh resampled).x ≤ RESCALE_X ∧
      (worker_picture image fresh resampled).y ≤ RESCALE_Y := by
  by_cases h : image.x > RESCALE_X ∨ image.y > RESCALE_Y
  · have h2 : ¬ (image.x ≤ RESCALE_X ∧ image.y ≤ RESCALE_Y) := by omega
    have e1 : worker_picture image fresh resampled =
        { x := RESCALE_X, y := RESCALE_Y, data := resampled } := by
      simp only [worker_picture, f_picture, rescale_image, if_pos h, if_neg h2]
    have e2 : main_picture image (rescale_image image fresh) =
        { x := RESCALE_X, y := RESCALE_Y, data := fresh } := by
      simp only [main_picture, rescale_image, if_pos h, if_neg h2]
    rw [e1, e2]
    exact ⟨rfl, rfl, Nat.le_refl _, Nat.le_refl _⟩
  · have h2 : image.x ≤ RESCALE_X ∧ image.y ≤ RESCALE_Y := by omega
    have e1 : worker_picture image fresh resampled = image := by
      simp only [worker_picture, f_picture, if_neg h]
    have e2 : main_picture image (rescale_image image fresh) = image := by
      simp only [main_picture, if_neg h]
    rw [e1, e2]
    exact ⟨rfl, rfl, h2.1, h2.2⟩

/-- C18 (grid accesses stay in bounds).  For every input image, the `p` and `q` a worker
derives from its working image equal the `p` and `q` with which `main` had `sample_grid`
allocate the grid, the grid has `p + 1` rows of `q + 1` cells, and every cell a worker
stores to in the sampling phase or loads in `march` lies in an allocated row, within its
length. -/
theorem grid_accesses_in_bounds (image : ppm_image) (fresh resampled : Int → ppm_pixel)
    (junk : grid_t) (t n : Nat) (grid : grid_t) (cm : Nat → ppm_image) :
    (worker_picture image fresh resampled).x / STEP =
        min (main_picture image (rescale_image image fresh)).x RESCALE_X / STEP ∧
    (worker_picture image fresh resampled).y / STEP =
        min (main_picture image (rescale_image image fresh)).y RESCALE_Y / STEP ∧
    (main_grid image fresh junk).rows =
        List.replicate ((worker_picture image fresh resampled).x / STEP + 1)
          (some ((worker_picture image fresh resampled).y / STEP + 1)) ∧
    (∀ i j v, sample_access.store_cell i j v ∈
        f_sample_trace t n (worker_picture image fresh resampled) STEP STEP →
      (i ≤ (worker_picture image fresh resampled).x / STEP ∧
        j ≤ (worker_picture image fresh resampled).y / STEP) ∧
      ∃ len, (main_grid image fresh junk).rows.get? i = some (some len) ∧ j < len) ∧
    (∀ i j, march_access.load_cell i j ∈
        march_trace t n (worker_picture image fresh resampled) grid cm STEP STEP →
      (i ≤ (worker_picture image fresh resampled).x / STEP ∧
        j ≤ (worker_picture image fresh resampled).y / STEP) ∧
      ∃ len, (main_grid image fresh junk).rows.get? i = some (some len) ∧ j < len) := by
  obtain ⟨dx, dy, bx, by2⟩ := worker_picture_dims image fresh resampled
  have hp : (worker_picture image fresh resampled).x / STEP =
      min (main_picture image (rescale_image image fresh)).x RESCALE_X / STEP := by
    rw [← dx, Nat.min_eq_left bx]
  have hq : (worker_picture image fresh resampled).y / STEP =
      min (main_picture image (rescale_image image fresh)).y RESCALE_Y / STEP := by
    rw [← dy, Nat.min_eq_left by2]
  have hrows : (main_grid image fresh junk).rows =
      List.replicate ((worker_picture image fresh resampled).x / STEP + 1)
        (some ((worker_picture image fresh resampled).y / STEP + 1)) := by
    rw [main_grid, sample_grid_rows, ← hp, ← hq]
  have hrow : ∀ i j, i ≤ (worker_picture image fresh resampled).x / STEP →
      j ≤ (worker_picture image fresh resampled).y / STEP →
      ∃ len, (main_grid image fresh junk).rows.get? i = some (some len) ∧ j < len := by
    intro i j hi hj
    refine ⟨(worker_picture image fresh resampled).y / STEP + 1, ?_, by omega⟩
    rw [hrows, List.get?_eq_getElem?, List.getElem?_replicate, if_pos (by omega)]
  refine ⟨hp, hq, hrows, fun i j v h => ?_, fun i j h => ?_⟩
  · have hb : i ≤ (worker_picture image fresh resampled).x / STEP ∧
        j ≤ (worker_picture image fresh resampled).y / STEP := by
      have e1 := part_end_le t n ((worker_picture image fresh resampled).x / STEP)
      have e2 := part_end_le t n ((worker_picture image fresh resampled).y / STEP)
      rcases f_sample_trace_stores t n _ STEP STEP h with ⟨_, a2, a3⟩ | ⟨a1, a2⟩ | ⟨a1, _, a3⟩
      · exact ⟨by omega, a3⟩
      · exact ⟨by omega, by omega⟩
      · exact ⟨by omega, by omega⟩
    exact ⟨hb, hrow i j hb.1 hb.2⟩
  · have hb : i ≤ (worker_picture image fresh resampled).x / STEP ∧
        j ≤ (worker_picture image fresh resampled).y / STEP := by
      obtain ⟨i2, j2, _, hi2, hj2, hcase⟩ := march_trace_access t n _ grid cm STEP STEP _ h
      have e1 := part_end_le t n ((worker_picture image fresh resampled).x / STEP)
      rcases hcase with h1 | h1 | h1 | h1 | h1 | h1
      · cases h1; exact ⟨by omega, by omega⟩
      · cases h1; exact ⟨by omega, by omega⟩
      · cases h1; exact ⟨by omega, by omega⟩
      · cases h1; exact ⟨by omega, by omega⟩
      · cases h1
      · obtain ⟨r, c, _, _, h2 | h2⟩ := h1
        · cases h2
        · cases h2
    exact ⟨hb, hrow i j hb.1 hb.2⟩

/-- The grid sampled from the solid black 16 x 16 image: ones, with a zero at `(2, 2)`. -/
theorem black_image_grid (order : List Nat) (n : Nat) (hn : 1 ≤ n)
    (horder : order.Perm (List.range n)) (grid : grid_t) {i j : Nat} (hi : i ≤ 2)
    (hj : j ≤ 2) :
    sample_phase order n black_image STEP STEP grid i j = if i = 2 ∧ j = 2 then 0 else 1 := by
  have hi2 : i ≤ black_image.x / STEP := hi
  have hj2 : j ≤ black_image.y / STEP := hj
  rw [sample_phase_spec order n hn (perm_range_mem horder) black_image STEP STEP grid hi2 hj2]
  interval_cases i <;> interval_cases j <;> decide

theorem black_image_codes (order : List Nat) (n : Nat) (hn : 1 ≤ n)
    (horder : order.Perm (List.range n)) (grid : grid_t) :
    config_code (sample_phase order n black_image STEP STEP grid) 0 0 = 15 ∧
      config_code (sample_phase order n black_image STEP STEP grid) 0 1 = 15 ∧
      config_code (sample_phase order n black_image STEP STEP grid) 1 0 = 15 ∧
      config_code (sample_phase order n black_image STEP STEP grid) 1 1 = 13 := by
  have h := fun (i j : Nat) (hi : i ≤ 2) (hj : j ≤ 2) =>
    black_image_grid order n hn horder grid hi hj
  simp only [config_code]
  rw [h 0 0 (by decide) (by decide), h 0 1 (by decide) (by decide),
    h 0 2 (by decide) (by decide), h 1 0 (by decide) (by decide),
    h 1 1 (by decide) (by decide), h 1 2 (by decide) (by decide),
    h 2 0 (by decide) (by decide), h 2 1 (by decide) (by decide),
    h 2 2 (by decide) (by decide)]
  decide

set_option maxRecDepth 100000 in
/-- C12 as stated fails: for the solid black 16 x 16 image the cell `(0, 0)`, whose four
corners are 1, has configuration code 15, not 7, and with tiles that carry their index in
the red channel the output pixel at offset 0 is not the pixel of tile 7. -/
theorem black_image_not_configuration_7 :
    config_code (sample_phase [0] 1 black_image STEP STEP ones_grid) 0 0 ≠ 7 ∧
      (run_workers 1 [0] [0] black_image ones_grid test_tiles).data 0 ≠
        (test_tiles 7).data 0 := by
  decide

/-- C12, amended.  For the solid black 16 x 16 image with step 8 and sigma 200, the three
cells `(0,0)`, `(0,1)`, `(1,0)` whose corners are all 1 have configuration code
`8+4+2+1 = 15` and the cell `(1,1)`, which has the zeroed corner `(2,2)`, has code
`15 - 2 = 13`; the output image is tile 15 stamped at the offsets `(0,0)`, `(0,8)`, `(8,0)`
and tile 13 stamped at `(8,8)`, with unchanged dimensions. -/
theorem black_image_classification (n : Nat) (hn : 1 ≤ n)
    (sample_order march_order : List Nat) (hso : sample_order.Perm (List.range n))
    (hmo : march_order.Perm (List.range n)) (grid : grid_t) (contour_map : Nat → ppm_image)
    (htiles : ∀ k, k < CONTOUR_CONFIG_COUNT →
      (contour_map k).x = STEP ∧ (contour_map k).y = STEP) :
    (config_code (sample_phase sample_order n black_image STEP STEP grid) 0 0 = 15 ∧
      config_code (sample_phase sample_order n black_image STEP STEP grid) 0 1 = 15 ∧
      config_code (sample_phase sample_order n black_image STEP STEP grid) 1 0 = 15 ∧
      config_code (sample_phase sample_order n black_image STEP STEP grid) 1 1 = 13) ∧
    (∀ a b, a < 16 → b < 16 →
      (run_workers n sample_order march_order black_image grid contour_map).data
          ((a * 16 + b : Nat) : Int) =
        (contour_map (if 8 ≤ a ∧ 8 ≤ b then 13 else 15)).data
          ((8 * (a % 8) + b % 8 : Nat) : Int)) ∧
    (run_workers n sample_order march_order black_image grid contour_map).x = 16 ∧
    (run_workers n sample_order march_order black_image grid contour_map).y = 16 := by
  have hcodes := black_image_codes sample_order n hn hso grid
  have hbin : ∀ a b, a ≤ black_image.x / STEP → b ≤ black_image.y / STEP →
      (sample_phase sample_order n black_image STEP STEP grid a b).val ≤ 1 := by
    intro a b ha hb
    rw [sample_phase_spec sample_order n hn (perm_range_mem hso) black_image STEP STEP grid
      ha hb]
    exact sampled_le_one black_image STEP STEP a b
  have ht := tiles_of_binary hbin htiles
  refine ⟨hcodes, fun a b ha hb => ?_, ?_⟩
  · have ha2 : a < STEP * (black_image.x / STEP) := ha
    have hb2 : b < STEP * (black_image.y / STEP) := hb
    have hspec := march_phase_spec march_order n hn (perm_range_mem hmo) black_image
      (sample_phase sample_order n black_image STEP STEP grid) contour_map ht ha2 hb2
    have hd : (run_workers n sample_order march_order black_image grid contour_map).data
          ((a * 16 + b : Nat) : Int) =
        (contour_map (config_code (sample_phase sample_order n black_image STEP STEP grid)
          (a / 8) (b / 8))).data ((8 * (a % 8) + b % 8 : Nat) : Int) := hspec
    rw [hd]
    obtain ⟨c00, c01, c10, c11⟩ := hcodes
    by_cases h1 : 8 ≤ a
    · have ea : a / 8 = 1 := by omega
      by_cases h2 : 8 ≤ b
      · have eb : b / 8 = 1 := by omega
        rw [ea, eb, c11, if_pos ⟨h1, h2⟩]
      · have eb : b / 8 = 0 := by omega
        rw [ea, eb, c10, if_neg (fun h => h2 h.2)]
    · have ea : a / 8 = 0 := by omega
      by_cases h2 : 8 ≤ b
      · have eb : b / 8 = 1 := by omega
        rw [ea, eb, c01, if_neg (fun h => h1 h.1)]
      · have eb : b / 8 = 0 := by omega
        rw [ea, eb, c00, if_neg (fun h => h1 h.1)]
  · exact march_phase_dims march_order n black_image
      (sample_phase sample_order n black_image STEP STEP grid) contour_map ht

theorem black_image_classification_witness :
    (run_workers 2 [1, 0] [0, 1] black_image (fun _ _ => 7) test_tiles).data
        ((9 * 16 + 10 : Nat) : Int) =
      (test_tiles (if 8 ≤ 9 ∧ 8 ≤ 10 then 13 else 15)).data ((8 * (9 % 8) + 10 % 8 : Nat) : Int) :=
  (black_image_classification 2 (by decide) [1, 0] [0, 1] (by decide) (by decide)
    (fun _ _ => 7) test_tiles (fun _ _ => ⟨rfl, rfl⟩)).2.1 9 10 (by decide) (by decide)

theorem idx_last_col_sharp {x y i : Nat} (hi : i < x / STEP)
    (hxy : x ≤ (STEP + x % STEP) * y) :
    1 ≤ i * STEP * y + x ∧ i * STEP * y + x ≤ x * y := by
  rw [STEP_eq] at hi hxy ⊢
  have h1 : i * 8 + (8 + x % 8) ≤ x := by omega
  have h2 := Nat.mul_le_mul_right y h1
  rw [Nat.add_mul] at h2
  omega

/-- The loads of the sampling code are inside the pixel buffer when the image has at least
one row and `x <= (STEP + x mod STEP) * y`; this covers every image with `x <= STEP * y`,
in particular every square image.  (For `x >= STEP` and `x - 1 >= (STEP + x mod STEP) * y`
the load of line 285 for the last row range leaves the buffer, as in
`boundary_column_read_out_of_bounds`.) -/
theorem f_sample_loads_in_bounds (t n : Nat) (picture : ppm_image) (hx : 1 ≤ picture.x)
    (hxy : picture.x ≤ (STEP + picture.x % STEP) * picture.y) :
    ∀ e ∈ f_sample_trace t n picture STEP STEP, ∀ k, e = sample_access.load_pixel k →
      0 ≤ k ∧ k < ((picture.x * picture.y : Nat) : Int) := by
  have e1 := part_end_le t n (picture.x / STEP)
  have e2 := part_end_le t n (picture.y / STEP)
  simp only [f_sample_trace]
  refine for_loop_invariant
    (fun tr => ∀ e ∈ tr, ∀ k, e = sample_access.load_pixel k →
      0 ≤ k ∧ k < ((picture.x * picture.y : Nat) : Int))
    _ _ _ (fun j _ hj2 tr htr => ?_) _ ?_
  · refine all_append_pair htr (fun k he => ?_) (fun _ he => by cases he)
    cases he
    exact idx_last_row hx (by omega)
  refine for_loop_invariant
    (fun tr => ∀ e ∈ tr, ∀ k, e = sample_access.load_pixel k →
      0 ≤ k ∧ k < ((picture.x * picture.y : Nat) : Int))
    _ _ _ (fun i _ hi2 tr htr => ?_) _ ?_
  · refine all_append_pair htr (fun k he => ?_) (fun _ he => by cases he)
    cases he
    obtain ⟨b1, b2⟩ := idx_last_col_sharp (Nat.lt_of_lt_of_le hi2 e1) hxy
    constructor
    · omega
    · omega
  refine all_append_one ?_ (fun _ he => by cases he)
  refine for_loop_invariant
    (fun tr => ∀ e ∈ tr, ∀ k, e = sample_access.load_pixel k →
      0 ≤ k ∧ k < ((picture.x * picture.y : Nat) : Int))
    _ _ _ (fun i _ hi2 tr htr => ?_) _ ?_
  · refine for_loop_invariant
      (fun tr => ∀ e ∈ tr, ∀ k, e = sample_access.load_pixel k →
        0 ≤ k ∧ k < ((picture.x * picture.y : Nat) : Int))
      _ _ _ (fun j _ hj2 tr2 htr2 => ?_) _ htr
    refine all_append_pair htr2 (fun k he => ?_) (fun _ he => by cases he)
    cases he
    exact ⟨Int.ofNat_nonneg _,
      Int.ofNat_lt.2 (idx_regular (Nat.lt_of_lt_of_le hi2 e1) hj2)⟩
  · intro e he
    simp at he

/-! ## Thread-count invariance and the memory outside the image -/

theorem mem_append_pair_fst {α : Type} (tr : List α) (a b : α) : a ∈ tr ++ [a, b] :=
  List.mem_append_right _ (List.mem_cons_self _ _)

/-- The pixels one worker's sampling code loads: the regular samples of its row range, the
load of line 285 for each row of its row range, and the load of line 299 for each column of
its column range. -/
theorem f_sample_trace_loads (t n : Nat) (picture : ppm_image) (step_x step_y : Nat) :
    (∀ i j, part_start t n (picture.x / step_x) ≤ i →
      i < part_end t n (picture.x / step_x) → j < picture.y / step_y →
      sample_access.load_pixel ((i * step_x * picture.y + j * step_y : Nat) : Int) ∈
        f_sample_trace t n picture step_x step_y) ∧
    (∀ i, part_start t n (picture.x / step_x) ≤ i →
      i < part_end t n (picture.x / step_x) →
      sample_access.load_pixel (((i * step_x * picture.y + picture.x : Nat) : Int) - 1) ∈
        f_sample_trace t n picture step_x step_y) ∧
    (∀ j, part_start t n (picture.y / step_y) ≤ j →
      j < part_end t n (picture.y / step_y) →
      sample_access.load_pixel
          (((picture.x : Int) - 1) * (picture.y : Int) + ((j * step_y : Nat) : Int)) ∈
        f_sample_trace t n picture step_x step_y) := by
  simp only [f_sample_trace]
  refine ⟨fun i j h1 h2 hj => ?_, fun i h1 h2 => ?_, fun j h1 h2 => ?_⟩
  · refine for_loop_keeps _ _ _ (fun _ _ _ he => List.mem_append_left _ he) _
      (for_loop_keeps _ _ _ (fun _ _ _ he => List.mem_append_left _ he) _
        (List.mem_append_left _ ?_))
    refine for_loop_mem _ _ _
      (fun _ tr e he => for_loop_keeps _ _ _ (fun _ _ _ he2 => List.mem_append_left _ he2) tr he)
      h1 h2 (fun tr => ?_) _
    refine for_loop_mem _ _ _ ?_ (Nat.zero_le j) hj ?_ tr
    · intro _ _ _ he
      exact List.mem_append_left _ he
    · intro tr2
      exact mem_append_pair_fst tr2 _ _
  · refine for_loop_keeps _ _ _ (fun _ _ _ he => List.mem_append_left _ he) _ ?_
    refine for_loop_mem _ _ _ ?_ h1 h2 ?_ _
    · intro _ _ _ he
      exact List.mem_append_left _ he
    · intro tr
      exact mem_append_pair_fst tr _ _
  · refine for_loop_mem _ _ _ ?_ h1 h2 ?_ _
    · intro _ _ _ he
      exact List.mem_append_left _ he
    · intro tr
      exact mem_append_pair_fst tr _ _

theorem part_start_single (N : Nat) : part_start 0 1 N = 0 := by
  simp [part_start]

theorem part_end_single (N : Nat) : part_end 0 1 N = N := by
  simp [part_end]

/-- When the loads of the sampling code stay inside the buffer, the sampled bytes depend
only on the pixels inside the buffer. -/
theorem sampled_congr (A B : ppm_image) (hx : A.x = B.x) (hy : A.y = B.y)
    (hsame : ∀ k : Int, 0 ≤ k → k < ((A.x * A.y : Nat) : Int) → A.data k = B.data k)
    (hin : ∀ nr t k, sample_access.load_pixel k ∈ f_sample_trace t nr A STEP STEP →
      0 ≤ k ∧ k < ((A.x * A.y : Nat) : Int))
    (a b : Nat) : sampled A STEP STEP a b = sampled B STEP STEP a b := by
  obtain ⟨L1, L2, L3⟩ := f_sample_trace_loads 0 1 A STEP STEP
  simp only [part_start_single, part_end_single] at L1 L2 L3
  have key : ∀ k, sample_access.load_pixel k ∈ f_sample_trace 0 1 A STEP STEP →
      A.data k = B.data k := fun k hk => hsame k (hin 1 0 k hk).1 (hin 1 0 k hk).2
  unfold sampled
  rw [← hx, ← hy]
  by_cases h1 : a < A.x / STEP
  · by_cases h2 : b < A.y / STEP
    · simp only [if_pos h1, if_pos h2]
      rw [key _ (L1 a b (Nat.zero_le a) h1 h2)]
    · simp only [if_pos h1, if_neg h2]
      rw [key _ (L2 a (Nat.zero_le a) h1)]
  · by_cases h2 : b < A.y / STEP
    · simp only [if_neg h1, if_pos h2]
      rw [key _ (L3 b (Nat.zero_le b) h2)]
    · simp only [if_neg h1, if_neg h2]

/-- Thread-count invariance where the sampling code stays inside the image.  Let two
pictures be the same working image (same `x`, `y` and the same `x*y` pixels; the memory
around the buffer may differ) and let no worker load a pixel outside the buffer.  Then for
all thread counts `n, m >= 1`, all worker orders, all 16-tile sets of `STEP x STEP` tiles
and whatever the uninitialised grids hold, the run with `n` workers on the one and the run
with `m` workers on the other produce the same output image: same dimensions and the same
`x*y` pixels. -/
theorem thread_count_invariance_in_bounds (A B : ppm_image) (hx : A.x = B.x)
    (hy : A.y = B.y)
    (hsame : ∀ k : Int, 0 ≤ k → k < ((A.x * A.y : Nat) : Int) → A.data k = B.data k)
    (hin : ∀ nr t k, sample_access.load_pixel k ∈ f_sample_trace t nr A STEP STEP →
      0 ≤ k ∧ k < ((A.x * A.y : Nat) : Int))
    (contour_map : Nat → ppm_image)
    (htiles : ∀ k, k < CONTOUR_CONFIG_COUNT →
      (contour_map k).x = STEP ∧ (contour_map k).y = STEP)
    (n m : Nat) (hn : 1 ≤ n) (hm : 1 ≤ m)
    (sample_order_n march_order_n sample_order_m march_order_m : List Nat)
    (hsn : sample_order_n.Perm (List.range n)) (hmn : march_order_n.Perm (List.range n))
    (hsm : sample_order_m.Perm (List.range m)) (hmm : march_order_m.Perm (List.range m))
    (grid_n grid_m : grid_t) :
    (run_workers n sample_order_n march_order_n A grid_n contour_map).x =
        (run_workers m sample_order_m march_order_m B grid_m contour_map).x ∧
    (run_workers n sample_order_n march_order_n A grid_n contour_map).y =
        (run_workers m sample_order_m march_order_m B grid_m contour_map).y ∧
    ∀ k : Int, 0 ≤ k → k < ((A.x * A.y : Nat) : Int) →
      (run_workers n sample_order_n march_order_n A grid_n contour_map).data k =
        (run_workers m sample_order_m march_order_m B grid_m contour_map).data k := by
  unfold run_workers
  have hA : ∀ a b, a ≤ A.x / STEP → b ≤ A.y / STEP →
      sample_phase sample_order_n n A STEP STEP grid_n a b = sampled A STEP STEP a b :=
    fun a b ha hb =>
      sample_phase_spec sample_order_n n hn (perm_range_mem hsn) A STEP STEP grid_n ha hb
  have hB : ∀ a b, a ≤ B.x / STEP → b ≤ B.y / STEP →
      sample_phase sample_order_m m B STEP STEP grid_m a b = sampled B STEP STEP a b :=
    fun a b ha hb =>
      sample_phase_spec sample_order_m m hm (perm_range_mem hsm) B STEP STEP grid_m ha hb
  have hbinA : ∀ a b, a ≤ A.x / STEP → b ≤ A.y / STEP →
      (sample_phase sample_order_n n A STEP STEP grid_n a b).val ≤ 1 := by
    intro a b ha hb
    rw [hA a b ha hb]
    exact sampled_le_one A STEP STEP a b
  have hbinB : ∀ a b, a ≤ B.x / STEP → b ≤ B.y / STEP →
      (sample_phase sample_order_m m B STEP STEP grid_m a b).val ≤ 1 := by
    intro a b ha hb
    rw [hB a b ha hb]
    exact sampled_le_one B STEP STEP a b
  have heq : ∀ a b, a ≤ A.x / STEP → b ≤ A.y / STEP →
      sample_phase sample_order_n n A STEP STEP grid_n a b =
        sample_phase sample_order_m m B STEP STEP grid_m a b := by
    intro a b ha hb
    rw [hA a b ha hb, hB a b (hx ▸ ha) (hy ▸ hb)]
    exact sampled_congr A B hx hy hsame hin a b
  have htA := tiles_of_binary hbinA htiles
  have htB := tiles_of_binary hbinB htiles
  obtain ⟨dAx, dAy⟩ := march_phase_dims march_order_n n A
    (sample_phase sample_order_n n A STEP STEP grid_n) contour_map htA
  obtain ⟨dBx, dBy⟩ := march_phase_dims march_order_m m B
    (sample_phase sample_order_m m B STEP STEP grid_m) contour_map htB
  refine ⟨by rw [dAx, dBx, hx], by rw [dAy, dBy, hy], fun k h0 h1 => ?_⟩
  by_cases hk : ∃ a b, a < STEP * (A.x / STEP) ∧ b < STEP * (A.y / STEP) ∧
      k = ((a * A.y + b : Nat) : Int)
  · obtain ⟨a, b, ha, hb, rfl⟩ := hk
    have hi : a / STEP < A.x / STEP := by rw [STEP_eq] at ha ⊢; omega
    have hj : b / STEP < A.y / STEP := by rw [STEP_eq] at hb ⊢; omega
    have sA := march_phase_spec march_order_n n hn (perm_range_mem hmn) A
      (sample_phase sample_order_n n A STEP STEP grid_n) contour_map htA ha hb
    have sB := march_phase_spec march_order_m m hm (perm_range_mem hmm) B
      (sample_phase sample_order_m m B STEP STEP grid_m) contour_map htB
      (a := a) (b := b) (hx ▸ ha) (hy ▸ hb)
    rw [← hy] at sB
    rw [sA, sB, config_code_congr heq hi hj]
  · have hkA : ∀ a b, a < STEP * (A.x / STEP) → b < STEP * (A.y / STEP) →
        k ≠ ((a * A.y + b : Nat) : Int) := fun a b ha hb h => hk ⟨a, b, ha, hb, h⟩
    have hkB : ∀ a b, a < STEP * (B.x / STEP) → b < STEP * (B.y / STEP) →
        k ≠ ((a * B.y + b : Nat) : Int) := by
      rw [← hx, ← hy]
      exact hkA
    rw [march_phase_frame march_order_n n A _ contour_map htA k hkA,
      march_phase_frame march_order_m m B _ contour_map htB k hkB]
    exact hsame k h0 h1

set_option maxRecDepth 1000000 in
/-- C1 (thread-count invariance), evaluated on the black image of 72 rows of 8 pixels
(576 pixels).  For `i = 8` line 285 loads offset `8*8*8 + 72 - 1 = 583`, which is outside
the buffer.  Two pictures that are the same working image (same dimensions, the same 576
pixels) and differ only at offset 583 get different grid cells `grid[8][1]`, and the
output of the run with 1 worker on the one differs from the output of the run with 2
workers on the other at the pixel of offset 512: the output is not determined by the
working image. -/
theorem thread_count_invariance_fails_out_of_bounds :
    sample_access.load_pixel 583 ∈ f_sample_trace 0 1 narrow_image STEP STEP ∧
    ¬ ((583 : Int) < ((narrow_image.x * narrow_image.y : Nat) : Int)) ∧
    narrow_image.x = narrow_image_alt.x ∧
    narrow_image.y = narrow_image_alt.y ∧
    (∀ k : Int, 0 ≤ k → k < ((narrow_image.x * narrow_image.y : Nat) : Int) →
      narrow_image.data k = narrow_image_alt.data k) ∧
    sample_phase [0] 1 narrow_image STEP STEP ones_grid 8 1 = 1 ∧
    sample_phase [1, 0] 2 narrow_image_alt STEP STEP ones_grid 8 1 = 0 ∧
    (run_workers 1 [0] [0] narrow_image ones_grid test_tiles).data 512 ≠
      (run_workers 2 [1, 0] [0, 1] narrow_image_alt ones_grid test_tiles).data 512 := by
  refine ⟨by decide, by decide, rfl, rfl, fun k _ h1 => ?_, by decide, by decide, by decide⟩
  have h2 : k < 576 := h1
  show black = if k = 583 then white else black
  rw [if_neg (by omega)]

/-- The invariance applies to the image of 8 rows of 16 pixels, whose sampling loads stay
inside the buffer: 1 worker and 2 workers, different worker orders and different
uninitialised grids give the same 128 output pixels. -/
theorem thread_count_invariance_in_bounds_example :
    ∀ k : Int, 0 ≤ k → k < ((wide_image.x * wide_image.y : Nat) : Int) →
      (run_workers 1 [0] [0] wide_image ones_grid test_tiles).data k =
        (run_workers 2 [1, 0] [0, 1] wide_image (fun _ _ => 7) test_tiles).data k :=
  (thread_count_invariance_in_bounds wide_image wide_image rfl rfl (fun _ _ _ => rfl)
    (fun nr t k hk =>
      f_sample_loads_in_bounds t nr wide_image (by decide) (by decide) _ hk k rfl)
    test_tiles (fun _ _ => ⟨rfl, rfl⟩) 1 2 (by decide) (by decide) [0] [0] [1, 0] [0, 1]
    (by decide) (by decide) (by decide) (by decide) ones_grid (fun _ _ => 7)).2.2

end MarchingSquares
